import Mathlib

/-!
Verification of the file-backed torrent storage layer (`storage/file.go`).

The Go source is modelled by a shallow embedding:

* the on-disk file system is an association list from paths (lists of
  path segments, mirroring `filepath.Join`) to byte contents;
* the per-torrent handle cache (`fileTorrentImpl.handles`) is an
  association list from paths to handle identifiers; a handle's file
  operations act on the file stored at the handle's path;
* `os.File.ReadAt` on contents `c` returns the bytes of `c` from the
  requested offset, at most the requested length, and reports end of
  file when fewer bytes than requested are available;
* `os.File.WriteAt` writes the bytes at the offset, zero-padding the gap
  when the offset lies past the current end of the file;
* errors are the values the Go code distinguishes: `io.EOF`
  ("end of data"), `io.ErrUnexpectedEOF` ("unexpected end of data") and
  a creation failure used to model a failing `os.Create`;
* each function additionally returns a list of `FileOp` values, a ghost
  operation log recording every file-local read or write request issued
  to the underlying OS file; the log never influences the computation.

Offsets and lengths are `Nat`: every call site in the source reaches
these functions with non-negative `int64` values.
-/

namespace TorrentFileStorage

abbrev Path := List String
abbrev Bytes := List Nat

/-- One entry of `metainfo.Info.UpvertedFiles()`: declared path segments
and declared length. -/
structure FileInfo where
  path : Path
  length : Nat
deriving DecidableEq, Repr

/-- The parts of `metainfo.Info` the storage layer reads: display name,
piece length and the ordered upverted file list. -/
structure Info where
  name : String
  pieceLen : Nat
  files : List FileInfo
deriving DecidableEq, Repr

/-- Sum of the declared lengths of a file-entry list. -/
def sumLen (files : List FileInfo) : Nat :=
  (files.map FileInfo.length).sum

/-- Total torrent length: sum of all declared entry lengths. -/
def totalLength (info : Info) : Nat :=
  sumLen info.files

/-- `metainfo.Piece.Offset()`: piece index times piece length. -/
def pieceOffset (info : Info) (idx : Nat) : Nat :=
  idx * info.pieceLen

/-- `metainfo.Piece.Length()`: the piece length, except that the final
piece extends only to the total torrent length. -/
def pieceLength (info : Info) (idx : Nat) : Nat :=
  min info.pieceLen (totalLength info - pieceOffset info idx)

/-- Ghost record of one file-local operation (`h.f.ReadAt` or
`h.f.WriteAt`): target path, the entry's declared length, file-local
offset, requested length, and for writes the bytes written. -/
structure FileOp where
  path : Path
  fiLength : Nat
  off : Nat
  len : Nat
  data : Bytes
deriving DecidableEq, Repr

/-- A cached open handle (`fileTorrentHandle`): its path and an identity
distinguishing separately-opened handles. -/
structure Handle where
  path : Path
  id : Nat
deriving DecidableEq, Repr

/-- The errors distinguished by the source: `io.EOF`,
`io.ErrUnexpectedEOF`, and a failing `os.Create`. -/
inductive IOErr where
  | eof
  | unexpectedEof
  | createFail (p : Path)
deriving DecidableEq, Repr

instance : DecidableEq (Except IOErr Handle) := fun x y =>
  match x, y with
  | Except.ok a, Except.ok b =>
    if h : a = b then Decidable.isTrue (by rw [h]) else Decidable.isFalse (by simp [h])
  | Except.error a, Except.error b =>
    if h : a = b then Decidable.isTrue (by rw [h]) else Decidable.isFalse (by simp [h])
  | Except.ok _, Except.error _ => Decidable.isFalse (by simp)
  | Except.error _, Except.ok _ => Decidable.isFalse (by simp)

/-- Association-list lookup (first match wins). -/
def lookupA {α β : Type} [DecidableEq α] : List (α × β) → α → Option β
  | [], _ => none
  | (k, v) :: rest, a => if k = a then some v else lookupA rest a

/-- Association-list update: replace in place, append when absent. -/
def setA {α β : Type} [DecidableEq α] : List (α × β) → α → β → List (α × β)
  | [], a, b => [(a, b)]
  | (k, v) :: rest, a, b => if k = a then (a, b) :: rest else (k, v) :: setA rest a b

/-- Mutable state of one torrent store plus its environment: the on-disk
files, the handle cache (`fileTorrentImpl.handles`, path to handle id),
the next fresh handle id, the completion store's records (piece index to
complete flag) and a ghost log of every `Set` issued to the completion
store. -/
structure St where
  fs : List (Path × Bytes)
  handles : List (Path × Nat)
  nextId : Nat
  pc : List (Nat × Bool)
  pcLog : List (Nat × Bool)
deriving DecidableEq, Repr

/-- `fileTorrentImpl.fileInfoName`: `filepath.Join(dir, info.Name, fi.Path...)`
as a segment list. -/
def fileInfoName (dir : String) (info : Info) (fi : FileInfo) : Path :=
  dir :: info.name :: fi.path

/-- `fileTorrentImpl.OpenFile`: return the cached handle when one exists
for the path; fail with `io.EOF` when the file is absent and
`creatable` is false; otherwise open (creating the file when absent)
and cache a fresh handle. -/
def openFile (dir : String) (info : Info) (st : St) (fi : FileInfo) (creatable : Bool) :
    Except IOErr Handle × St :=
  let filename := fileInfoName dir info fi
  match lookupA st.handles filename with
  | some i => (Except.ok ⟨filename, i⟩, st)
  | none =>
    if lookupA st.fs filename = none ∧ creatable = false then
      (Except.error IOErr.eof, st)
    else
      let fs1 := if lookupA st.fs filename = none then setA st.fs filename [] else st.fs
      (Except.ok ⟨filename, st.nextId⟩,
        { st with
          fs := fs1
          handles := setA st.handles filename st.nextId
          nextId := st.nextId + 1 })

/-- `os.File.WriteAt` on contents `c`: write `data` at offset `off`,
zero-padding when `off` lies past the end; writing no bytes is a no-op. -/
def fWriteAt (c : Bytes) (data : Bytes) (off : Nat) : Bytes :=
  if data = [] then c
  else c.take off ++ List.replicate (off - c.length) 0 ++ data ++ c.drop (off + data.length)

/-- The read loop of `fileTorrentImplIO.readFileAt`, after the buffer
has been clamped: repeatedly call `h.f.ReadAt`; stop when the buffer is
full, the entry bound is reached, or a call returns zero bytes (that
call's `io.EOF` is kept as the loop's error). Each `h.f.ReadAt` request
is recorded in the ghost log. -/
def readFileAtLoop (pth : Path) (c : Bytes) (fiLen : Nat) (bLen off : Nat) :
    Bytes × Option IOErr × List FileOp :=
  if h : off < fiLen ∧ bLen ≠ 0 then
    let chunk := (c.drop off).take bLen
    let op : FileOp := ⟨pth, fiLen, off, bLen, []⟩
    if h1 : chunk.length = 0 then
      ([], some IOErr.eof, [op])
    else
      let r := readFileAtLoop pth c fiLen (bLen - chunk.length) (off + chunk.length)
      (chunk ++ r.1, r.2.1, op :: r.2.2)
  else
    ([], none, [])
termination_by bLen
decreasing_by
  have hc : chunk.length ≠ 0 := h1
  simp only [chunk, List.length_take, List.length_drop] at hc
  simp_wf
  omega

/-- `fileTorrentImplIO.readFileAt`: open the file non-creatably (an
absent file reports `io.EOF`), clamp the buffer to the entry's declared
bounds, then run the read loop on the file's current contents. -/
def readFileAt (dir : String) (info : Info) (st : St) (fi : FileInfo) (bLen off : Nat) :
    (Bytes × Option IOErr × List FileOp) × St :=
  match openFile dir info st fi false with
  | (Except.error e, st1) => (([], some e, []), st1)
  | (Except.ok h, st1) =>
    let c := (lookupA st1.fs h.path).getD []
    let bLen1 := min bLen (fi.length - off)
    (readFileAtLoop h.path c fi.length bLen1 off, st1)

/-- How the per-entry loop of `fileTorrentImplIO.ReadAt` ends: the entry
is exhausted (`off` reached the entry length, walk continues), or the
function returns with the given error value. -/
inductive InnerRes where
  | exhausted
  | done (e : Option IOErr)
deriving DecidableEq, Repr

/-- The inner loop of `fileTorrentImplIO.ReadAt` for one file entry:
while `off < fi.Length`, call `readFileAt`; return successfully once
the buffer is full; keep looping while progress is made; on zero
progress return the call's error, turning `io.EOF` into
`io.ErrUnexpectedEOF`. -/
def readAtEntry (dir : String) (info : Info) (st : St) (fi : FileInfo) (bLen off : Nat) :
    (Bytes × InnerRes × List FileOp) × St :=
  if h : off < fi.length then
    match readFileAt dir info st fi bLen off with
    | ((chunk, e1, ops), st1) =>
      if h1 : bLen - chunk.length = 0 then
        ((chunk, InnerRes.done none, ops), st1)
      else if h2 : chunk.length ≠ 0 then
        let r2 := readAtEntry dir info st1 fi (bLen - chunk.length) (off + chunk.length)
        ((chunk ++ r2.1.1, r2.1.2.1, ops ++ r2.1.2.2), r2.2)
      else
        ((chunk,
          InnerRes.done (if e1 = some IOErr.eof then some IOErr.unexpectedEof else e1),
          ops), st1)
  else
    (([], InnerRes.exhausted, []), st)
termination_by bLen
decreasing_by
  omega

/-- The outer walk of `fileTorrentImplIO.ReadAt` over the file entries:
run the inner loop on each entry in order; when an entry is exhausted
subtract its length from the running offset and continue; when the
entries run out report `io.EOF`. -/
def readAtOuter (dir : String) (info : Info) :
    St → List FileInfo → Nat → Nat → (Bytes × Option IOErr × List FileOp) × St
  | st, [], _, _ => (([], some IOErr.eof, []), st)
  | st, fi :: rest, bLen, off =>
    let r := readAtEntry dir info st fi bLen off
    match r.1.2.1 with
    | InnerRes.done e => ((r.1.1, e, r.1.2.2), r.2)
    | InnerRes.exhausted =>
      let n := r.1.1.length
      let r2 := readAtOuter dir info r.2 rest (bLen - n) (off + n - fi.length)
      ((r.1.1 ++ r2.1.1, r2.1.2.1, r.1.2.2 ++ r2.1.2.2), r2.2)

/-- `fileTorrentImplIO.ReadAt`: the extent-translating read over the
torrent's upverted file list. -/
def ReadAt (dir : String) (info : Info) (st : St) (bLen off : Nat) :
    (Bytes × Option IOErr × List FileOp) × St :=
  readAtOuter dir info st info.files bLen off

/-- `fileTorrentImplIO.WriteAt`: walk the file entries; skip entries the
offset lies past; for each overlapping entry clamp the write to the
entry's remaining capacity, open the file creatably, write under the
file's lock, then continue at offset zero of the next entry until the
buffer is exhausted. -/
def writeAtOuter (dir : String) (info : Info) :
    St → List FileInfo → Bytes → Nat → (Nat × Option IOErr × List FileOp) × St
  | st, [], _, _ => ((0, none, []), st)
  | st, fi :: rest, p, off =>
    if off ≥ fi.length then writeAtOuter dir info st rest p (off - fi.length)
    else
      let n1 := min p.length (fi.length - off)
      match openFile dir info st fi true with
      | (Except.error e, st1) => ((0, some e, []), st1)
      | (Except.ok h, st1) =>
        let c := (lookupA st1.fs h.path).getD []
        let st2 := { st1 with fs := setA st1.fs h.path (fWriteAt c (p.take n1) off) }
        let op : FileOp := ⟨h.path, fi.length, off, n1, p.take n1⟩
        if p.length - n1 = 0 then ((n1, none, [op]), st2)
        else
          let r := writeAtOuter dir info st2 rest (p.drop n1) 0
          ((n1 + r.1.1, r.1.2.1, op :: r.1.2.2), r.2)

/-- `fileTorrentImplIO.WriteAt` over the torrent's upverted file list. -/
def WriteAt (dir : String) (info : Info) (st : St) (p : Bytes) (off : Nat) :
    (Nat × Option IOErr × List FileOp) × St :=
  writeAtOuter dir info st info.files p off

/-- `storage.Completion`: the completion record returned by the store. -/
structure Completion where
  complete : Bool
  ok : Bool
deriving DecidableEq, Repr

/-- `PieceCompletion.Get`: a stored flag yields an ok record; an absent
record yields `Ok = false`. -/
def pcGet (pc : List (Nat × Bool)) (idx : Nat) : Completion :=
  match lookupA pc idx with
  | some b => ⟨b, true⟩
  | none => ⟨false, false⟩

/-- `PieceCompletion.Set`: store the flag and record the call in the
ghost log of issued set operations. -/
def pcSet (st : St) (idx : Nat) (b : Bool) : St :=
  { st with pc := setA st.pc idx b, pcLog := st.pcLog ++ [(idx, b)] }

/-- Modelled from the spec: `extentCompleteRequiredLengths` is called by
`filePieceImpl.Completion` but defined in a repository file that is not
among the sources at hand. Spec 4.5: the required entries are "every
file entry whose span overlaps the piece's byte range, using the
required covered length (the larger of what the piece's range actually
demands from that file) — a zero-length file entry is trivially
satisfied and skipped", and the check compares each such file's size
against what "the byte range demands". Each produced entry carries the
entry's path and, as its length, the end of the extent the piece
demands inside that file. -/
def extentCompleteRequiredLengths : List FileInfo → Nat → Nat → List FileInfo
  | _, _, 0 => []
  | [], _, _ => []
  | fi :: rest, off, Nat.succ m =>
    let n := Nat.succ m
    if off ≥ fi.length then extentCompleteRequiredLengths rest (off - fi.length) n
    else
      let n1 := min n (fi.length - off)
      ⟨fi.path, off + n1⟩ :: extentCompleteRequiredLengths rest 0 (n - n1)

/-- The verification loop of `filePieceImpl.Completion`: for each
required entry, open the file non-creatably and stat it; a failing open
or a size below the required length stops the loop and downgrades the
complete flag. Returns whether the flag survived. -/
def completionCheckLoop (dir : String) (info : Info) :
    St → List FileInfo → Bool × St
  | st, [] => (true, st)
  | st, fi :: rest =>
    match openFile dir info st fi false with
    | (Except.error _, st1) => (false, st1)
    | (Except.ok h, st1) =>
      let size := ((lookupA st1.fs h.path).getD []).length
      if size < fi.length then (false, st1)
      else completionCheckLoop dir info st1 rest

/-- `filePieceImpl.Completion`: get the stored record; when the get is
not ok return a not-ok record as is; otherwise run the file-size
verification loop over the required extents, and when the resulting
complete flag is false issue a corrective `Set(key, false)` to the
store before returning the record. -/
def pieceCompletion (dir : String) (info : Info) (st : St) (idx : Nat) : Completion × St :=
  let c := pcGet st.pc idx
  if c.ok = false then (⟨false, false⟩, st)
  else
    let r := completionCheckLoop dir info st
      (extentCompleteRequiredLengths info.files (pieceOffset info idx) (pieceLength info idx))
    let complete := c.complete && r.1
    if complete = false then (⟨complete, c.ok⟩, pcSet r.2 idx false)
    else (⟨complete, c.ok⟩, r.2)

/-- The loop of `CreateNativeZeroLengthFiles`: walk the file entries in
order, skip entries of non-zero length, create (truncate to empty) each
zero-length entry's file, and stop at the first creation failure.
`failCreate` lists the paths on which `os.Create` fails. -/
def createZeroLoop (dir : String) (info : Info) (failCreate : List Path) :
    List (Path × Bytes) → List FileInfo → Option IOErr × List (Path × Bytes)
  | fs, [] => (none, fs)
  | fs, fi :: rest =>
    if fi.length ≠ 0 then createZeroLoop dir info failCreate fs rest
    else
      let name := fileInfoName dir info fi
      if name ∈ failCreate then (some (IOErr.createFail name), fs)
      else createZeroLoop dir info failCreate (setA fs name []) rest

/-- `storage.CreateNativeZeroLengthFiles`. -/
def CreateNativeZeroLengthFiles (dir : String) (info : Info) (fs : List (Path × Bytes))
    (failCreate : List Path) : Option IOErr × List (Path × Bytes) :=
  createZeroLoop dir info failCreate fs info.files

/-- `fileClientImpl.OpenTorrent`: materialize zero-length files; on
failure propagate the error, otherwise return a fresh torrent store
with an empty handle cache over the resulting disk state. -/
def openTorrent (dir : String) (info : Info) (fs : List (Path × Bytes))
    (failCreate : List Path) (pc : List (Nat × Bool)) : Except IOErr St :=
  match CreateNativeZeroLengthFiles dir info fs failCreate with
  | (some e, _) => Except.error e
  | (none, fs1) => Except.ok ⟨fs1, [], 0, pc, []⟩

/-! ### Association-list lemmas -/

theorem lookupA_setA_self {α β : Type} [DecidableEq α] (l : List (α × β)) (k : α) (v : β) :
    lookupA (setA l k v) k = some v := by
  induction l with
  | nil => simp [setA, lookupA]
  | cons kv rest ih =>
    by_cases h : kv.1 = k
    · simp [setA, lookupA, h]
    · simp [setA, lookupA, h, ih]

theorem lookupA_setA_ne {α β : Type} [DecidableEq α] (l : List (α × β)) (k k' : α) (v : β)
    (h : k' ≠ k) : lookupA (setA l k v) k' = lookupA l k' := by
  induction l with
  | nil => simp [setA, lookupA, Ne.symm h]
  | cons kv rest ih =>
    obtain ⟨a, b⟩ := kv
    by_cases hk : a = k
    · subst hk
      simp only [setA, if_pos rfl, lookupA]
      rw [if_neg (Ne.symm h), if_neg (Ne.symm h)]
    · simp only [setA, if_neg hk, lookupA]
      by_cases hk' : a = k'
      · simp [hk']
      · simp [hk', ih]

theorem setA_eq_of_lookup {α β : Type} [DecidableEq α] (l : List (α × β)) (k : α) (v : β)
    (h : lookupA l k = some v) : setA l k v = l := by
  induction l with
  | nil => simp [lookupA] at h
  | cons kv rest ih =>
    obtain ⟨a, b⟩ := kv
    by_cases hk : a = k
    · subst hk
      have hb : b = v := by simpa [lookupA] using h
      subst hb
      simp [setA]
    · simp only [lookupA, if_neg hk] at h
      simp [setA, hk, ih h]

theorem lookupA_none_iff {α β : Type} [DecidableEq α] (l : List (α × β)) (k : α) :
    lookupA l k = none ↔ k ∉ l.map Prod.fst := by
  induction l with
  | nil => simp [lookupA]
  | cons kv rest ih =>
    by_cases hk : kv.1 = k
    · simp [lookupA, hk]
    · simp [lookupA, hk, ih, Ne.symm hk]

theorem setA_keys_of_mem {α β : Type} [DecidableEq α] (l : List (α × β)) (k : α) (v : β)
    (h : lookupA l k ≠ none) : (setA l k v).map Prod.fst = l.map Prod.fst := by
  induction l with
  | nil => simp [lookupA] at h
  | cons kv rest ih =>
    by_cases hk : kv.1 = k
    · simp [setA, hk]
    · simp only [lookupA, if_neg hk] at h
      simp [setA, hk, ih h]

theorem setA_keys_of_none {α β : Type} [DecidableEq α] (l : List (α × β)) (k : α) (v : β)
    (h : lookupA l k = none) : (setA l k v).map Prod.fst = l.map Prod.fst ++ [k] := by
  induction l with
  | nil => simp [setA]
  | cons kv rest ih =>
    by_cases hk : kv.1 = k
    · simp [lookupA, hk] at h
    · simp only [lookupA, if_neg hk] at h
      simp [setA, hk, ih h]

theorem nodup_keys_setA {α β : Type} [DecidableEq α] (l : List (α × β)) (k : α) (v : β)
    (h : (l.map Prod.fst).Nodup) : ((setA l k v).map Prod.fst).Nodup := by
  rcases hl : lookupA l k with _ | v0
  · rw [setA_keys_of_none l k v hl]
    refine List.Nodup.append h (List.nodup_singleton k) ?_
    intro a ha hb
    simp only [List.mem_singleton] at hb
    subst hb
    exact ((lookupA_none_iff _ _).mp hl) ha
  · rw [setA_keys_of_mem l k v (by simp [hl])]
    exact h

/-! ### `openFile` lemmas -/

theorem openFile_cached {dir info st fi creatable i}
    (h : lookupA st.handles (fileInfoName dir info fi) = some i) :
    openFile dir info st fi creatable = (Except.ok ⟨fileInfoName dir info fi, i⟩, st) := by
  simp [openFile, h]

theorem openFile_absent {dir info st fi}
    (h1 : lookupA st.handles (fileInfoName dir info fi) = none)
    (h2 : lookupA st.fs (fileInfoName dir info fi) = none) :
    openFile dir info st fi false = (Except.error IOErr.eof, st) := by
  simp [openFile, h1, h2]

theorem openFile_error {dir info st fi creatable e st1}
    (h : openFile dir info st fi creatable = (Except.error e, st1)) :
    e = IOErr.eof ∧ st1 = st ∧ creatable = false ∧
      lookupA st.fs (fileInfoName dir info fi) = none ∧
      lookupA st.handles (fileInfoName dir info fi) = none := by
  by_cases hh : lookupA st.handles (fileInfoName dir info fi) = none
  · by_cases hf : lookupA st.fs (fileInfoName dir info fi) = none
    · by_cases hc : creatable = false
      · rw [openFile] at h
        simp only [hh, hf, hc] at h
        simp only [and_self, if_true, Prod.mk.injEq, Except.error.injEq] at h
        exact ⟨h.1.symm, h.2.symm, hc, hf, hh⟩
      · rw [openFile] at h
        simp [hh, hf, hc] at h
    · rw [openFile] at h
      simp [hh, hf] at h
  · rcases Option.ne_none_iff_exists'.mp hh with ⟨i, hi⟩
    rw [openFile_cached hi] at h
    simp at h

theorem openFile_ok_path {dir info st fi creatable h st1}
    (hk : openFile dir info st fi creatable = (Except.ok h, st1)) :
    h.path = fileInfoName dir info fi := by
  rw [openFile] at hk
  rcases hl : lookupA st.handles (fileInfoName dir info fi) with _ | i
  · simp only [hl] at hk
    by_cases hc : lookupA st.fs (fileInfoName dir info fi) = none ∧ creatable = false
    · simp [hc] at hk
    · simp only [if_neg hc] at hk
      cases hk
      rfl
  · simp only [hl] at hk
    cases hk
    rfl

theorem openFile_fs_frame {dir info st fi creatable} (p : Path)
    (hp : p ≠ fileInfoName dir info fi) :
    lookupA (openFile dir info st fi creatable).2.fs p = lookupA st.fs p := by
  rw [openFile]
  rcases hl : lookupA st.handles (fileInfoName dir info fi) with _ | i
  · by_cases hc : lookupA st.fs (fileInfoName dir info fi) = none ∧ creatable = false
    · simp [hc]
    · simp only [if_neg hc]
      by_cases hf : lookupA st.fs (fileInfoName dir info fi) = none
      · simp [hf, lookupA_setA_ne _ _ _ _ hp]
      · simp [hf]
  · simp

theorem openFile_false_fs {dir info st fi} :
    (openFile dir info st fi false).2.fs = st.fs := by
  rw [openFile]
  rcases hl : lookupA st.handles (fileInfoName dir info fi) with _ | i
  · by_cases hf : lookupA st.fs (fileInfoName dir info fi) = none
    · simp [hf]
    · simp [hf]
  · simp

theorem openFile_pc {dir info st fi creatable} :
    (openFile dir info st fi creatable).2.pc = st.pc := by
  rw [openFile]
  rcases hl : lookupA st.handles (fileInfoName dir info fi) with _ | i
  · by_cases hc : lookupA st.fs (fileInfoName dir info fi) = none ∧ creatable = false
    · simp [hc]
    · simp [hc]
  · simp

theorem openFile_pcLog {dir info st fi creatable} :
    (openFile dir info st fi creatable).2.pcLog = st.pcLog := by
  rw [openFile]
  rcases hl : lookupA st.handles (fileInfoName dir info fi) with _ | i
  · by_cases hc : lookupA st.fs (fileInfoName dir info fi) = none ∧ creatable = false
    · simp [hc]
    · simp [hc]
  · simp

theorem openFile_handles_mono {dir info st fi creatable} (p : Path) (j : Nat)
    (h : lookupA st.handles p = some j) :
    lookupA (openFile dir info st fi creatable).2.handles p = some j := by
  rw [openFile]
  rcases hl : lookupA st.handles (fileInfoName dir info fi) with _ | i
  · by_cases hc : lookupA st.fs (fileInfoName dir info fi) = none ∧ creatable = false
    · simp [hc, h]
    · have hp : p ≠ fileInfoName dir info fi := by
        intro he
        rw [he, hl] at h
        exact Option.noConfusion h
      simp [hc, lookupA_setA_ne _ _ _ _ hp, h]
  · simp [h]

theorem openFile_nodup {dir info st fi creatable}
    (h : (st.handles.map Prod.fst).Nodup) :
    ((openFile dir info st fi creatable).2.handles.map Prod.fst).Nodup := by
  rw [openFile]
  rcases hl : lookupA st.handles (fileInfoName dir info fi) with _ | i
  · by_cases hc : lookupA st.fs (fileInfoName dir info fi) = none ∧ creatable = false
    · simp [hc, h]
    · simp only [if_neg hc]
      exact nodup_keys_setA _ _ _ h
  · simp [h]

theorem openFile_true_ok {dir info st fi} :
    ∃ i st1, openFile dir info st fi true = (Except.ok ⟨fileInfoName dir info fi, i⟩, st1) ∧
      lookupA st1.handles (fileInfoName dir info fi) = some i := by
  rw [openFile]
  rcases hl : lookupA st.handles (fileInfoName dir info fi) with _ | i
  · refine ⟨st.nextId,
      { st with
        fs := if lookupA st.fs (fileInfoName dir info fi) = none
          then setA st.fs (fileInfoName dir info fi) [] else st.fs
        handles := setA st.handles (fileInfoName dir info fi) st.nextId
        nextId := st.nextId + 1 }, ?_, ?_⟩
    · simp
    · exact lookupA_setA_self st.handles (fileInfoName dir info fi) st.nextId
  · exact ⟨i, st, by simp, hl⟩

/-! ### `fWriteAt` and `readFileAtLoop` lemmas -/

theorem drop_take_middle (X d tl : Bytes) (n : Nat) (h : X.length = n) :
    ((X ++ (d ++ tl)).drop n).take d.length = d := by
  subst h
  rw [List.drop_left, List.take_left]

theorem fWriteAt_readback (c d : Bytes) (off : Nat) :
    ((fWriteAt c d off).drop off).take d.length = d := by
  rcases hd : d with _ | ⟨x, xs⟩
  · simp
  rw [← hd]
  have hdne : d ≠ [] := by simp [hd]
  rw [fWriteAt, if_neg hdne, List.append_assoc]
  exact drop_take_middle _ _ _ off
    (by simp only [List.length_append, List.length_take, List.length_replicate]; omega)

theorem readFileAtLoop_closed (pth : Path) (c : Bytes) (fiLen : Nat) :
    ∀ bLen off, off + bLen ≤ fiLen →
      (readFileAtLoop pth c fiLen bLen off).1 = (c.drop off).take bLen ∧
      (readFileAtLoop pth c fiLen bLen off).2.1 =
        (if ((c.drop off).take bLen).length = bLen then none else some IOErr.eof) ∧
      ∀ op ∈ (readFileAtLoop pth c fiLen bLen off).2.2,
        op.fiLength = fiLen ∧ op.off + op.len ≤ fiLen ∧ op.off < fiLen := by
  intro bLen
  induction bLen using Nat.strong_induction_on with
  | _ bLen ih =>
    intro off hb
    by_cases h0 : bLen = 0
    · subst h0
      rw [readFileAtLoop]
      simp
    by_cases hoff : off < fiLen
    · rw [readFileAtLoop]
      rw [dif_pos ⟨hoff, h0⟩]
      set chunk := (c.drop off).take bLen with hchunk
      have hlen : chunk.length = min bLen (c.length - off) := by
        simp [hchunk]
      by_cases hc0 : chunk.length = 0
      · simp only [dif_pos hc0]
        refine ⟨?_, ?_, ?_⟩
        · exact (List.eq_nil_of_length_eq_zero hc0).symm
        · rw [if_neg (by omega)]
        · intro op hop
          simp only [List.mem_singleton] at hop
          subst hop
          exact ⟨rfl, by simpa using hb, hoff⟩
      · simp only [dif_neg hc0]
        have hrec := ih (bLen - chunk.length) (by omega) (off + chunk.length) (by omega)
        have hdd : c.drop (off + chunk.length) = (c.drop off).drop chunk.length := by
          rw [List.drop_drop]
        refine ⟨?_, ?_, ?_⟩
        · rw [hrec.1, hdd]
          by_cases hfull : chunk.length = bLen
          · have h1 : bLen - chunk.length = 0 := by omega
            rw [h1]
            simp
          · have hempty : (c.drop off).drop chunk.length = [] := by
              apply List.eq_nil_of_length_eq_zero
              simp only [List.length_drop]
              omega
            rw [hempty]
            simp
        · rw [hrec.2.1, hdd]
          by_cases hfull : chunk.length = bLen
          · have h1 : bLen - chunk.length = 0 := by omega
            rw [h1]
            simp [hfull]
          · have hempty : (c.drop off).drop chunk.length = [] := by
              apply List.eq_nil_of_length_eq_zero
              simp only [List.length_drop]
              omega
            rw [hempty]
            simp only [List.take_nil, List.length_nil]
            rw [if_neg (by omega), if_neg hfull]
        · intro op hop
          simp only [List.mem_cons] at hop
          rcases hop with hop | hop
          · subst hop
            exact ⟨rfl, by simpa using hb, hoff⟩
          · exact hrec.2.2 op hop
    · omega

/-! ### `readFileAt` and `readAtEntry` lemmas -/

theorem readFileAt_spec (dir : String) (info : Info) (st : St) (fi : FileInfo)
    (bLen off : Nat) (hoff : off < fi.length) :
    (readFileAt dir info st fi bLen off).1.1.length ≤ min bLen (fi.length - off) ∧
    (bLen ≠ 0 →
      ((readFileAt dir info st fi bLen off).1.2.1 = none ↔
        (readFileAt dir info st fi bLen off).1.1.length = min bLen (fi.length - off))) ∧
    ((readFileAt dir info st fi bLen off).1.2.1 = none ∨
      (readFileAt dir info st fi bLen off).1.2.1 = some IOErr.eof) := by
  rw [readFileAt]
  rcases hof : openFile dir info st fi false with ⟨r, st1⟩
  rcases r with e | h
  · obtain ⟨he1, he2, _⟩ := openFile_error hof
    subst he1
    simp only []
    refine ⟨by simp, ?_, by simp⟩
    intro hb
    constructor
    · intro hc
      exact absurd hc (by simp)
    · intro hc
      simp only [List.length_nil] at hc
      omega
  · simp only []
    have hcl := readFileAtLoop_closed h.path ((lookupA st1.fs h.path).getD [])
      fi.length (min bLen (fi.length - off)) off (by omega)
    rw [hcl.1, hcl.2.1]
    set c := (lookupA st1.fs h.path).getD [] with hc
    refine ⟨by simp, ?_, ?_⟩
    · intro hb
      by_cases hfull : ((c.drop off).take (min bLen (fi.length - off))).length
          = min bLen (fi.length - off)
      · rw [if_pos hfull]
        exact ⟨fun _ => hfull, fun _ => rfl⟩
      · rw [if_neg hfull]
        exact ⟨fun hx => absurd hx (by simp), fun hx => absurd hx hfull⟩
    · by_cases hfull : ((c.drop off).take (min bLen (fi.length - off))).length
          = min bLen (fi.length - off)
      · rw [if_pos hfull]
        left
        rfl
      · rw [if_neg hfull]
        right
        rfl

theorem readAtEntry_oob (dir : String) (info : Info) (st : St) (fi : FileInfo)
    (bLen off : Nat) (h : ¬ off < fi.length) :
    readAtEntry dir info st fi bLen off = (([], InnerRes.exhausted, []), st) := by
  rw [readAtEntry]
  simp [h]

theorem readAtEntry_spec (dir : String) (info : Info) (fi : FileInfo) :
    ∀ (bLen : Nat) (st : St) (off : Nat), ∃ bs res ops st1,
      readAtEntry dir info st fi bLen off = ((bs, res, ops), st1) ∧
      bs.length ≤ bLen ∧
      bs.length ≤ fi.length - off ∧
      (res = InnerRes.exhausted ↔
        (bs.length = fi.length - off ∧ (bs.length < bLen ∨ bLen = 0))) ∧
      (res = InnerRes.done none ↔ (bs.length = bLen ∧ (0 < bLen ∨ off < fi.length))) ∧
      (∀ e, res = InnerRes.done (some e) →
        e = IOErr.unexpectedEof ∧ bs.length < bLen ∧ bs.length < fi.length - off) ∧
      (res = InnerRes.exhausted ∨ res = InnerRes.done none ∨
        res = InnerRes.done (some IOErr.unexpectedEof)) := by
  intro bLen
  induction bLen using Nat.strong_induction_on with
  | _ bLen ih =>
    intro st off
    by_cases hoff : off < fi.length
    · have hspec := readFileAt_spec dir info st fi bLen off hoff
      rcases hrf : readFileAt dir info st fi bLen off with ⟨⟨chunk, e1, ops⟩, st1⟩
      rw [hrf] at hspec
      simp only [] at hspec
      have hn1min : chunk.length ≤ min bLen (fi.length - off) := hspec.1
      rw [readAtEntry]
      rw [dif_pos hoff, hrf]
      by_cases h1 : bLen - chunk.length = 0
      · refine ⟨chunk, InnerRes.done none, ops, st1, by simp [h1], ?_⟩
        have hnb : chunk.length = bLen := by omega
        refine ⟨by omega, by omega, ?_, ?_, ?_, ?_⟩
        · simp only [reduceCtorEq, false_iff]
          intro hc
          omega
        · exact ⟨fun _ => ⟨hnb, Or.inr hoff⟩, fun _ => rfl⟩
        · intro e he
          simp only [InnerRes.done.injEq] at he
          exact absurd he.symm (by simp)
        · right
          left
          rfl
      · by_cases h2 : chunk.length ≠ 0
        · obtain ⟨bs2, res2, ops2, st2, heq2, e21, e22, e23, e24, e25, e26⟩ :=
            ih (bLen - chunk.length) (by omega) st1 (off + chunk.length)
          refine ⟨chunk ++ bs2, res2, ops ++ ops2, st2, ?_, ?_⟩
          · simp only [dif_neg h1, dif_pos h2, heq2]
          have hlen : (chunk ++ bs2).length = chunk.length + bs2.length := by simp
          have hsub : fi.length - (off + chunk.length) = (fi.length - off) - chunk.length := by
            omega
          rw [hsub] at e22 e23 e25
          refine ⟨by omega, by omega, ?_, ?_, ?_, e26⟩
          · rw [e23, hlen]
            constructor
            · intro hc
              omega
            · intro hc
              omega
          · rw [e24, hlen]
            constructor
            · intro hc
              omega
            · intro hc
              omega
          · intro e he
            obtain ⟨hu, hlt1, hlt2⟩ := e25 e he
            exact ⟨hu, by omega, by omega⟩
        · -- zero progress with a non-empty buffer: unexpected EOF
          push_neg at h2
          have hb0 : bLen ≠ 0 := by omega
          have hmin1 : 0 < min bLen (fi.length - off) := by omega
          have he1 : e1 = some IOErr.eof := by
            rcases hspec.2.2 with hn | hs
            · exfalso
              have := (hspec.2.1 hb0).mp hn
              omega
            · exact hs
          refine ⟨chunk, InnerRes.done (some IOErr.unexpectedEof), ops, st1, ?_, ?_⟩
          · simp only [dif_neg h1, dif_neg (by omega : ¬ chunk.length ≠ 0)]
            rw [he1]
            simp
          refine ⟨by omega, by omega, ?_, ?_, ?_, ?_⟩
          · simp only [reduceCtorEq, false_iff]
            intro hc
            omega
          · simp only [InnerRes.done.injEq, reduceCtorEq, false_iff]
            intro hc
            omega
          · intro e he
            simp only [InnerRes.done.injEq, Option.some.injEq] at he
            exact ⟨he.symm, by omega, by omega⟩
          · right
            right
            rfl
    · refine ⟨[], InnerRes.exhausted, [], st, readAtEntry_oob dir info st fi bLen off hoff, ?_⟩
      refine ⟨by simp, by simp, ?_, ?_, ?_, Or.inl rfl⟩
      · simp only [List.length_nil, true_iff]
        omega
      · simp only [List.length_nil, reduceCtorEq, false_iff]
        intro hc
        omega
      · intro e he
        exact absurd he (by simp)

theorem readAtOuter_spec (dir : String) (info : Info) :
    ∀ (files : List FileInfo) (st : St) (bLen off : Nat), ∃ bs e ops st1,
      readAtOuter dir info st files bLen off = ((bs, e, ops), st1) ∧
      bs.length ≤ bLen ∧
      bs.length ≤ sumLen files - off ∧
      (e = none ↔ (bs.length = bLen ∧ (0 < bLen ∨ off < sumLen files))) ∧
      (e = some IOErr.eof ↔
        (bs.length = sumLen files - off ∧ (bs.length < bLen ∨ bLen = 0))) ∧
      (e = none ∨ e = some IOErr.eof ∨ e = some IOErr.unexpectedEof) := by
  intro files
  induction files with
  | nil =>
    intro st bLen off
    refine ⟨[], some IOErr.eof, [], st, rfl, by simp, by simp, ?_, ?_, by simp⟩
    · simp only [reduceCtorEq, List.length_nil, false_iff, sumLen, List.map_nil, List.sum_nil]
      omega
    · simp only [Option.some.injEq, List.length_nil, true_iff, sumLen, List.map_nil,
        List.sum_nil]
      omega
  | cons fi rest ih =>
    intro st bLen off
    have hS : sumLen (fi :: rest) = fi.length + sumLen rest := by
      simp [sumLen]
    obtain ⟨bs1, res1, ops1, st1, heq1, e1le, e1fi, e1ex, e1dn, e1ds, e1tri⟩ :=
      readAtEntry_spec dir info fi bLen st off
    rcases e1tri with h | h | h
    · -- entry exhausted: continue with the next entries
      obtain ⟨hlen1, hlt1⟩ := e1ex.mp h
      obtain ⟨bs2, e2, ops2, st2, heq2, e2le, e2S, e2none, e2eof, e2tri⟩ :=
        ih st1 (bLen - bs1.length) (off + bs1.length - fi.length)
      refine ⟨bs1 ++ bs2, e2, ops1 ++ ops2, st2, ?_, ?_, ?_, ?_, ?_, e2tri⟩
      · rw [readAtOuter, heq1]
        simp only [h, heq2]
      · simp only [List.length_append]
        omega
      · simp only [List.length_append, hS]
        omega
      · rw [e2none]
        simp only [List.length_append, hS]
        omega
      · rw [e2eof]
        simp only [List.length_append, hS]
        omega
    · -- entry returned with a full buffer
      obtain ⟨hlen1, hpos⟩ := e1dn.mp h
      refine ⟨bs1, none, ops1, st1, ?_, by omega, ?_, ?_, ?_, Or.inl rfl⟩
      · rw [readAtOuter, heq1]
        simp only [h]
      · rw [hS]
        omega
      · simp only [true_iff]
        rw [hS]
        omega
      · simp only [reduceCtorEq, false_iff, hS]
        omega
    · -- entry returned with unexpected end of data
      obtain ⟨_, hlt, hfi⟩ := e1ds IOErr.unexpectedEof h
      refine ⟨bs1, some IOErr.unexpectedEof, ops1, st1, ?_, by omega, ?_, ?_, ?_,
        Or.inr (Or.inr rfl)⟩
      · rw [readAtOuter, heq1]
        simp only [h]
      · rw [hS]
        omega
      · simp only [reduceCtorEq, false_iff, hS]
        omega
      · simp only [Option.some.injEq, reduceCtorEq, false_iff, hS]
        intro hc
        omega

/-! ### Concrete example torrents and disk states, used by witnesses and
counterexamples -/

/-- Example torrent: two files `a` and `b` of lengths 2 and 2. -/
def infoAB : Info := ⟨"t", 4, [⟨["a"], 2⟩, ⟨["b"], 2⟩]⟩

/-- Disk state where file `a` is full and file `b` is truncated to one
byte. -/
def stTrunc : St := ⟨[(["d", "t", "a"], [1, 2]), (["d", "t", "b"], [3])], [], 0, [], []⟩

/-! ### Claim C3 -/

/-- C3: EOF taxonomy of the extent-translator read. For every offset and
non-empty buffer, `ReadAt` returns no error exactly when the buffer is
completely filled; it returns the end-of-data error exactly when the
walk exhausts the file entries at the end of the last entry (the bytes
read stop exactly at the total torrent length) with the buffer
unfilled; it returns the unexpected-end-of-data error exactly when it
stops short of both the buffer and the total length; in particular a
read starting at or past the total torrent length returns the
end-of-data error with zero bytes. -/
theorem c3_eof_taxonomy (dir : String) (info : Info) (st : St) (bLen off : Nat)
    (hb : bLen ≠ 0) :
    ((ReadAt dir info st bLen off).1.2.1 = none ↔
      (ReadAt dir info st bLen off).1.1.length = bLen) ∧
    ((ReadAt dir info st bLen off).1.2.1 = some IOErr.eof ↔
      ((ReadAt dir info st bLen off).1.1.length < bLen ∧
        (ReadAt dir info st bLen off).1.1.length = totalLength info - off)) ∧
    ((ReadAt dir info st bLen off).1.2.1 = some IOErr.unexpectedEof ↔
      ((ReadAt dir info st bLen off).1.1.length < bLen ∧
        (ReadAt dir info st bLen off).1.1.length < totalLength info - off)) ∧
    (totalLength info ≤ off →
      (ReadAt dir info st bLen off).1.1 = [] ∧
      (ReadAt dir info st bLen off).1.2.1 = some IOErr.eof) := by
  obtain ⟨bs, e, ops, st1, heq, hle, hS, hnone, heof, htri⟩ :=
    readAtOuter_spec dir info info.files st bLen off
  have hra : ReadAt dir info st bLen off = ((bs, e, ops), st1) := heq
  rw [hra]
  simp only []
  have hT : totalLength info = sumLen info.files := rfl
  rw [hT]
  have hne : e = none ↔ bs.length = bLen := by
    rw [hnone]
    constructor
    · intro hc
      exact hc.1
    · intro hc
      exact ⟨hc, Or.inl (by omega)⟩
  have hef : e = some IOErr.eof ↔ (bs.length < bLen ∧ bs.length = sumLen info.files - off) := by
    rw [heof]
    constructor
    · intro hc
      rcases hc.2 with hx | hx
      · exact ⟨hx, hc.1⟩
      · exact absurd hx hb
    · intro hc
      exact ⟨hc.2, Or.inl hc.1⟩
  refine ⟨hne, hef, ?_, ?_⟩
  · constructor
    · intro hu
      have h1 : e ≠ none := by
        rw [hu]
        simp
      have h2 : e ≠ some IOErr.eof := by
        rw [hu]
        simp
      have hn1 : bs.length ≠ bLen := fun hc => h1 (hne.mpr hc)
      have hn2 : ¬(bs.length < bLen ∧ bs.length = sumLen info.files - off) :=
        fun hc => h2 (hef.mpr hc)
      constructor
      · omega
      · have : bs.length ≠ sumLen info.files - off := by
          intro hc
          exact hn2 ⟨by omega, hc⟩
        omega
    · intro hc
      rcases htri with h | h | h
      · rw [hne] at h
        omega
      · rw [hef] at h
        omega
      · exact h
  · intro hoff
    have h0 : bs.length = 0 := by omega
    refine ⟨List.eq_nil_of_length_eq_zero h0, ?_⟩
    rw [hef]
    omega

/-- Witness for C3: a concrete torrent with two files of declared
length 2 each, the second truncated on disk to one byte; a read of 3
bytes at offset 1 stops after 2 bytes with the unexpected-end-of-data
error, exhibiting the taxonomy at a concrete input. -/
theorem c3_eof_taxonomy_witness :
    (3 : Nat) ≠ 0 ∧
    (((ReadAt "d" infoAB stTrunc 3 1).1.2.1 = none ↔
      (ReadAt "d" infoAB stTrunc 3 1).1.1.length = 3) ∧
    ((ReadAt "d" infoAB stTrunc 3 1).1.2.1 = some IOErr.eof ↔
      ((ReadAt "d" infoAB stTrunc 3 1).1.1.length < 3 ∧
        (ReadAt "d" infoAB stTrunc 3 1).1.1.length = totalLength infoAB - 1)) ∧
    ((ReadAt "d" infoAB stTrunc 3 1).1.2.1 = some IOErr.unexpectedEof ↔
      ((ReadAt "d" infoAB stTrunc 3 1).1.1.length < 3 ∧
        (ReadAt "d" infoAB stTrunc 3 1).1.1.length < totalLength infoAB - 1)) ∧
    (totalLength infoAB ≤ 1 →
      (ReadAt "d" infoAB stTrunc 3 1).1.1 = [] ∧
      (ReadAt "d" infoAB stTrunc 3 1).1.2.1 = some IOErr.eof)) :=
  ⟨by decide, c3_eof_taxonomy "d" infoAB stTrunc 3 1 (by decide)⟩

/-! ### Write-side lemmas and claim C10 -/

theorem writeAtOuter_spec (dir : String) (info : Info) :
    ∀ (files : List FileInfo) (st : St) (p : Bytes) (off : Nat), ∃ n e ops st1,
      writeAtOuter dir info st files p off = ((n, e, ops), st1) ∧
      e = none ∧
      n = min p.length (sumLen files - off) ∧
      (sumLen files ≤ off → st1 = st ∧ ops = []) := by
  intro files
  induction files with
  | nil =>
    intro st p off
    exact ⟨0, none, [], st, rfl, rfl, by simp [sumLen], fun _ => ⟨rfl, rfl⟩⟩
  | cons fi rest ih =>
    intro st p off
    have hS : sumLen (fi :: rest) = fi.length + sumLen rest := by
      simp [sumLen]
    by_cases hskip : off ≥ fi.length
    · obtain ⟨n, e, ops, st1, heq, he, hn, hst⟩ := ih st p (off - fi.length)
      refine ⟨n, e, ops, st1, ?_, he, ?_, ?_⟩
      · rw [writeAtOuter, if_pos hskip, heq]
      · rw [hn, hS]
        omega
      · intro hoff
        exact hst (by omega)
    · obtain ⟨i, st1, hopen, hcache⟩ := @openFile_true_ok dir info st fi
      rw [writeAtOuter, if_neg hskip, hopen]
      simp only []
      set n1 := min p.length (fi.length - off) with hn1
      by_cases hdone : p.length - n1 = 0
      · rw [if_pos hdone]
        refine ⟨_, _, _, _, rfl, rfl, ?_, ?_⟩
        · rw [hS]
          omega
        · intro hoff
          omega
      · obtain ⟨n2, e2, ops2, st2, heq2, he2, hn2, _⟩ :=
          ih ({ st1 with
                fs := setA st1.fs (fileInfoName dir info fi)
                  (fWriteAt ((lookupA st1.fs (fileInfoName dir info fi)).getD [])
                    (p.take n1) off) }) (p.drop n1) 0
        rw [if_neg hdone, heq2]
        refine ⟨_, _, _, _, rfl, he2, ?_, ?_⟩
        · rw [hn2, hS]
          simp only [List.length_drop]
          omega
        · intro hoff
          omega

/-- C10: a write extending past the total torrent length is silently
truncated: `WriteAt` reports no error and returns the number of bytes
that fall within the declared file entries; a write starting at or past
the total length writes nothing, leaves the state unchanged, issues no
file operation, and returns `(0, nil)`. -/
theorem c10_write_truncation (dir : String) (info : Info) (st : St) (p : Bytes) (off : Nat) :
    (WriteAt dir info st p off).1.2.1 = none ∧
    (WriteAt dir info st p off).1.1 = min p.length (totalLength info - off) ∧
    (totalLength info ≤ off →
      (WriteAt dir info st p off).1.1 = 0 ∧
      (WriteAt dir info st p off).2 = st ∧
      (WriteAt dir info st p off).1.2.2 = []) := by
  obtain ⟨n, e, ops, st1, heq, he, hn, hst⟩ := writeAtOuter_spec dir info info.files st p off
  have hw : WriteAt dir info st p off = ((n, e, ops), st1) := heq
  rw [hw]
  simp only []
  have hT : totalLength info = sumLen info.files := rfl
  refine ⟨he, by rw [hT]; exact hn, ?_⟩
  intro hoff
  rw [hT] at hoff
  obtain ⟨h1, h2⟩ := hst hoff
  exact ⟨by omega, h1, h2⟩

/-- Witness for C10: on the concrete two-file torrent of total length 4,
a write of two bytes starting at offset 5 writes nothing, changes
nothing, and returns `(0, nil)`. -/
theorem c10_write_truncation_witness :
    totalLength infoAB ≤ 5 ∧
    ((WriteAt "d" infoAB stTrunc [9, 9] 5).1.1 = 0 ∧
      (WriteAt "d" infoAB stTrunc [9, 9] 5).2 = stTrunc ∧
      (WriteAt "d" infoAB stTrunc [9, 9] 5).1.2.2 = []) :=
  ⟨by decide, (c10_write_truncation "d" infoAB stTrunc [9, 9] 5).2.2 (by decide)⟩

/-! ### Claim C6: clamping of file-local operations -/

theorem readFileAt_ops (dir : String) (info : Info) (st : St) (fi : FileInfo)
    (bLen off : Nat) (hoff : off < fi.length) :
    ∀ op ∈ (readFileAt dir info st fi bLen off).1.2.2,
      op.off + op.len ≤ op.fiLength ∧ op.off < op.fiLength := by
  rw [readFileAt]
  rcases hof : openFile dir info st fi false with ⟨r, st1⟩
  rcases r with e | h
  · simp
  · simp only []
    intro op hop
    have hcl := readFileAtLoop_closed h.path ((lookupA st1.fs h.path).getD [])
      fi.length (min bLen (fi.length - off)) off (by omega)
    obtain ⟨hfl, hb, ho⟩ := hcl.2.2 op hop
    rw [hfl]
    exact ⟨hb, ho⟩

theorem readAtEntry_ops (dir : String) (info : Info) (fi : FileInfo) :
    ∀ (bLen : Nat) (st : St) (off : Nat),
      ∀ op ∈ (readAtEntry dir info st fi bLen off).1.2.2,
        op.off + op.len ≤ op.fiLength ∧ op.off < op.fiLength := by
  intro bLen
  induction bLen using Nat.strong_induction_on with
  | _ bLen ih =>
    intro st off
    by_cases hoff : off < fi.length
    · have hops := readFileAt_ops dir info st fi bLen off hoff
      rcases hrf : readFileAt dir info st fi bLen off with ⟨⟨chunk, e1, ops⟩, st1⟩
      rw [hrf] at hops
      simp only [] at hops
      rw [readAtEntry, dif_pos hoff, hrf]
      by_cases h1 : bLen - chunk.length = 0
      · simp only [dif_pos h1]
        exact hops
      · by_cases h2 : chunk.length ≠ 0
        · simp only [dif_neg h1, dif_pos h2]
          intro op hop
          rcases List.mem_append.mp hop with hm | hm
          · exact hops op hm
          · exact ih (bLen - chunk.length) (by omega) st1 (off + chunk.length) op hm
        · simp only [dif_neg h1, dif_neg h2]
          exact hops
    · rw [readAtEntry_oob dir info st fi bLen off hoff]
      simp

theorem readAtOuter_ops (dir : String) (info : Info) :
    ∀ (files : List FileInfo) (st : St) (bLen off : Nat),
      ∀ op ∈ (readAtOuter dir info st files bLen off).1.2.2,
        op.off + op.len ≤ op.fiLength ∧ op.off < op.fiLength := by
  intro files
  induction files with
  | nil =>
    intro st bLen off
    simp [readAtOuter]
  | cons fi rest ih =>
    intro st bLen off
    have hops := readAtEntry_ops dir info fi bLen st off
    rcases hre : readAtEntry dir info st fi bLen off with ⟨⟨bs1, res1, ops1⟩, st1⟩
    rw [hre] at hops
    simp only [] at hops
    rw [readAtOuter, hre]
    rcases res1 with _ | e
    · simp only []
      intro op hop
      rcases List.mem_append.mp hop with hm | hm
      · exact hops op hm
      · exact ih st1 (bLen - bs1.length) (off + bs1.length - fi.length) op hm
    · simp only []
      exact hops

theorem writeAtOuter_ops (dir : String) (info : Info) :
    ∀ (files : List FileInfo) (st : St) (p : Bytes) (off : Nat),
      ∀ op ∈ (writeAtOuter dir info st files p off).1.2.2,
        op.off + op.len ≤ op.fiLength ∧ op.off < op.fiLength := by
  intro files
  induction files with
  | nil =>
    intro st p off
    simp [writeAtOuter]
  | cons fi rest ih =>
    intro st p off
    by_cases hskip : off ≥ fi.length
    · rw [writeAtOuter, if_pos hskip]
      exact ih st p (off - fi.length)
    · obtain ⟨i, st1, hopen, _⟩ := @openFile_true_ok dir info st fi
      rw [writeAtOuter, if_neg hskip, hopen]
      simp only []
      by_cases hdone : p.length - min p.length (fi.length - off) = 0
      · rw [if_pos hdone]
        intro op hop
        simp only [List.mem_singleton] at hop
        subst hop
        constructor
        · simp only []
          omega
        · simp only []
          omega
      · rw [if_neg hdone]
        intro op hop
        rcases List.mem_cons.mp hop with hm | hm
        · subst hm
          constructor
          · simp only []
            omega
          · simp only []
            omega
        · exact ih _ (p.drop (min p.length (fi.length - off))) 0 op hm

/-- C6: clamping. Every file-local operation issued by the extent
translator's read or write walk stays inside the entry's declared
bounds: the file-local offset is below the entry's declared length and
the requested length is clamped so the operation never extends past the
declared length. -/
theorem c6_clamping (dir : String) (info : Info) (st st2 : St) (p : Bytes)
    (off bLen off2 : Nat) :
    (∀ op ∈ (WriteAt dir info st p off).1.2.2,
      op.off + op.len ≤ op.fiLength ∧ op.off < op.fiLength) ∧
    (∀ op ∈ (ReadAt dir info st2 bLen off2).1.2.2,
      op.off + op.len ≤ op.fiLength ∧ op.off < op.fiLength) :=
  ⟨writeAtOuter_ops dir info info.files st p off,
    readAtOuter_ops dir info info.files st2 bLen off2⟩

/-- Witness for C6: the concrete single-byte write at torrent offset 3
of the two-file torrent issues exactly one file-local operation, on file
`b` at file-local offset 1 with length 1, which satisfies the clamping
bounds. -/
theorem c6_clamping_witness :
    (⟨["d", "t", "b"], 2, 1, 1, [9]⟩ : FileOp) ∈ (WriteAt "d" infoAB stTrunc [9] 3).1.2.2 ∧
    ((1 : Nat) + 1 ≤ 2 ∧ (1 : Nat) < 2) :=
  ⟨by decide,
    (c6_clamping "d" infoAB stTrunc stTrunc [9] 3 1 0).1 ⟨["d", "t", "b"], 2, 1, 1, [9]⟩
      (by decide)⟩

/-! ### Claim C7: boundary splitting -/

theorem writeAtOuter_skip (dir : String) (info : Info) :
    ∀ (pre rest : List FileInfo) (st : St) (p : Bytes) (off : Nat),
      sumLen pre ≤ off →
      writeAtOuter dir info st (pre ++ rest) p off
        = writeAtOuter dir info st rest p (off - sumLen pre) := by
  intro pre
  induction pre with
  | nil =>
    intro rest st p off _
    simp [sumLen]
  | cons fi pre1 ih =>
    intro rest st p off hoff
    have hS : sumLen (fi :: pre1) = fi.length + sumLen pre1 := by
      simp [sumLen]
    rw [hS] at hoff ⊢
    rw [List.cons_append, writeAtOuter, if_pos (by omega)]
    rw [ih rest st p (off - fi.length) (by omega)]
    have : off - fi.length - sumLen pre1 = off - (fi.length + sumLen pre1) := by omega
    rw [this]

/-- An empty initial torrent store state over an empty disk. -/
def stEmpty : St := ⟨[], [], 0, [], []⟩

/-- C7: boundary splitting. A write whose torrent-relative range starts
inside entry `f1` with remaining capacity `L1 = f1.length - lo` and
extends into the next entry `f2` issues exactly two file-local writes,
in order: the first `L1` bytes at the tail of `f1`'s physical file
(file-local offset `lo`, ending exactly at `f1.length`), then the
remaining bytes at offset 0 of `f2`'s physical file; the whole write
reports all bytes written and no error. -/
theorem c7_boundary_split (dir : String) (info : Info) (st : St)
    (pre post : List FileInfo) (f1 f2 : FileInfo) (p : Bytes) (off : Nat)
    (hfiles : info.files = pre ++ f1 :: f2 :: post)
    (hpre : sumLen pre ≤ off)
    (hin : off - sumLen pre < f1.length)
    (hspan : f1.length - (off - sumLen pre) < p.length)
    (hfit : p.length ≤ (f1.length - (off - sumLen pre)) + f2.length) :
    (WriteAt dir info st p off).1.2.2 =
      [⟨fileInfoName dir info f1, f1.length, off - sumLen pre,
          f1.length - (off - sumLen pre), p.take (f1.length - (off - sumLen pre))⟩,
        ⟨fileInfoName dir info f2, f2.length, 0,
          p.length - (f1.length - (off - sumLen pre)),
          p.drop (f1.length - (off - sumLen pre))⟩] ∧
    (WriteAt dir info st p off).1.1 = p.length ∧
    (WriteAt dir info st p off).1.2.1 = none ∧
    (off - sumLen pre) + (f1.length - (off - sumLen pre)) = f1.length := by
  have hw : WriteAt dir info st p off = writeAtOuter dir info st info.files p off := rfl
  rw [hw, hfiles, writeAtOuter_skip dir info pre (f1 :: f2 :: post) st p off hpre]
  set lo := off - sumLen pre with hlo
  set L1 := f1.length - lo with hL1
  obtain ⟨i1, st1, hopen1, _⟩ := @openFile_true_ok dir info st f1
  rw [writeAtOuter, if_neg (by omega), hopen1]
  simp only []
  have hn1 : min p.length (f1.length - lo) = L1 := by omega
  rw [hn1]
  rw [if_neg (by omega)]
  obtain ⟨i2, st2, hopen2, _⟩ :=
    @openFile_true_ok dir info
      ({ st1 with
          fs := setA st1.fs (fileInfoName dir info f1)
            (fWriteAt ((lookupA st1.fs (fileInfoName dir info f1)).getD [])
              (p.take L1) lo) }) f2
  rw [writeAtOuter, if_neg (by omega), hopen2]
  simp only []
  have hn2 : min (p.drop L1).length (f2.length - 0) = p.length - L1 := by
    simp only [List.length_drop]
    omega
  rw [hn2]
  rw [if_pos (by simp only [List.length_drop]; omega)]
  refine ⟨?_, ?_, rfl, by omega⟩
  · rw [show p.length - L1 = (p.drop L1).length by simp, List.take_length]
  · show L1 + (p.length - L1) = p.length
    omega

/-- Witness for C7: on the two-file torrent (entries of length 2 and 2),
writing three bytes at torrent offset 1 issues exactly one byte at the
tail of file `a` followed by two bytes at the start of file `b`, writes
all three bytes and reports no error. -/
theorem c7_boundary_split_witness :
    (infoAB.files = [] ++ ⟨["a"], 2⟩ :: ⟨["b"], 2⟩ :: [] ∧
      sumLen [] ≤ 1 ∧ 1 - sumLen [] < 2 ∧ 2 - (1 - sumLen []) < 3 ∧
      3 ≤ (2 - (1 - sumLen [])) + 2) ∧
    ((WriteAt "d" infoAB stEmpty [9, 8, 7] 1).1.2.2 =
      [⟨["d", "t", "a"], 2, 1, 1, [9]⟩, ⟨["d", "t", "b"], 2, 0, 2, [8, 7]⟩] ∧
      (WriteAt "d" infoAB stEmpty [9, 8, 7] 1).1.1 = 3 ∧
      (WriteAt "d" infoAB stEmpty [9, 8, 7] 1).1.2.1 = none) := by
  have h := c7_boundary_split "d" infoAB stEmpty [] [] ⟨["a"], 2⟩ ⟨["b"], 2⟩ [9, 8, 7] 1
    (by decide) (by decide) (by decide) (by decide) (by decide)
  exact ⟨⟨by decide, by decide, by decide, by decide, by decide⟩, h.1, h.2.1, h.2.2.1⟩

/-! ### Claim C4: a missing file aborts the read walk -/

theorem readAtOuter_missing_head (dir : String) (info : Info) (st : St)
    (fi : FileInfo) (rest : List FileInfo) (bLen off : Nat)
    (hoff : off < fi.length) (hb : bLen ≠ 0)
    (hh : lookupA st.handles (fileInfoName dir info fi) = none)
    (hf : lookupA st.fs (fileInfoName dir info fi) = none) :
    readAtOuter dir info st (fi :: rest) bLen off
      = (([], some IOErr.unexpectedEof, []), st) := by
  have hrfa : readFileAt dir info st fi bLen off = (([], some IOErr.eof, []), st) := by
    rw [readFileAt, openFile_absent hh hf]
  have hentry : readAtEntry dir info st fi bLen off
      = (([], InnerRes.done (some IOErr.unexpectedEof), []), st) := by
    rw [readAtEntry, dif_pos hoff, hrfa]
    simp [hb]
  rw [readAtOuter, hentry]

/-- C4 (amended): during the read walk, when the file backing the
current entry is absent on disk and no handle for it is cached, the
entry contributes zero bytes and the whole read fails immediately: the
end-of-data error from the non-creatable open is converted to the
unexpected-end-of-data error and returned, the state is unchanged, and
the walk does not continue into the remaining entries. -/
theorem c4_missing_file_unexpected (dir : String) (info : Info) (st : St)
    (fi : FileInfo) (rest : List FileInfo) (bLen off : Nat)
    (hoff : off < fi.length) (hb : bLen ≠ 0)
    (hh : lookupA st.handles (fileInfoName dir info fi) = none)
    (hf : lookupA st.fs (fileInfoName dir info fi) = none) :
    readAtOuter dir info st (fi :: rest) bLen off
      = (([], some IOErr.unexpectedEof, []), st) :=
  readAtOuter_missing_head dir info st fi rest bLen off hoff hb hh hf

/-- A two-entry torrent with one byte per file. -/
def infoTwo1 : Info := ⟨"t", 2, [⟨["a"], 1⟩, ⟨["b"], 1⟩]⟩

/-- Disk state where only the second file `b` exists. -/
def stOnlyB : St := ⟨[(["d", "t", "b"], [7])], [], 0, [], []⟩

/-- Counterexample to C4 as stated: with the first file absent on disk,
a read of both bytes does not treat the missing file as zero bytes and
continue into the second entry — it returns zero bytes with the
unexpected-end-of-data error, failing the overall read (the byte of the
present second file is never delivered). -/
theorem c4_missing_file_cex :
    (ReadAt "d" infoTwo1 stOnlyB 2 0).1.1 = [] ∧
    (ReadAt "d" infoTwo1 stOnlyB 2 0).1.2.1 = some IOErr.unexpectedEof ∧
    (ReadAt "d" infoTwo1 stOnlyB 2 0).1.2.1 ≠ none := by
  have h := readAtOuter_missing_head "d" infoTwo1 stOnlyB ⟨["a"], 1⟩ [⟨["b"], 1⟩] 2 0
    (by decide) (by decide) (by decide) (by decide)
  have hra : ReadAt "d" infoTwo1 stOnlyB 2 0 = (([], some IOErr.unexpectedEof, []), stOnlyB) := h
  rw [hra]
  exact ⟨rfl, rfl, by simp⟩

/-- Witness for C4 (amended): the concrete two-entry torrent with the
first file absent exhibits the aborting behavior. -/
theorem c4_missing_file_unexpected_witness :
    ((0 : Nat) < 1 ∧ (2 : Nat) ≠ 0 ∧
      lookupA stOnlyB.handles (fileInfoName "d" infoTwo1 ⟨["a"], 1⟩) = none ∧
      lookupA stOnlyB.fs (fileInfoName "d" infoTwo1 ⟨["a"], 1⟩) = none) ∧
    readAtOuter "d" infoTwo1 stOnlyB (⟨["a"], 1⟩ :: [⟨["b"], 1⟩]) 2 0
      = (([], some IOErr.unexpectedEof, []), stOnlyB) :=
  ⟨⟨by decide, by decide, by decide, by decide⟩,
    c4_missing_file_unexpected "d" infoTwo1 stOnlyB ⟨["a"], 1⟩ [⟨["b"], 1⟩] 2 0
      (by decide) (by decide) (by decide) (by decide)⟩

/-! ### Claim C1: round trip -/

theorem writeAtOuter_handles_mono (dir : String) (info : Info) :
    ∀ (files : List FileInfo) (st : St) (p : Bytes) (off : Nat) (q : Path) (j : Nat),
      lookupA st.handles q = some j →
      lookupA (writeAtOuter dir info st files p off).2.handles q = some j := by
  intro files
  induction files with
  | nil =>
    intro st p off q j hq
    exact hq
  | cons fi rest ih =>
    intro st p off q j hq
    by_cases hskip : off ≥ fi.length
    · rw [writeAtOuter, if_pos hskip]
      exact ih st p (off - fi.length) q j hq
    · obtain ⟨i, st1, hopen, _⟩ := @openFile_true_ok dir info st fi
      have hm := @openFile_handles_mono dir info st fi true q j hq
      rw [hopen] at hm
      rw [writeAtOuter, if_neg hskip, hopen]
      simp only []
      by_cases hdone : p.length - min p.length (fi.length - off) = 0
      · rw [if_pos hdone]
        exact hm
      · rw [if_neg hdone]
        exact ih _ (p.drop (min p.length (fi.length - off))) 0 q j hm

theorem writeAtOuter_fs_frame (dir : String) (info : Info) :
    ∀ (files : List FileInfo) (st : St) (p : Bytes) (off : Nat) (q : Path),
      (∀ fi ∈ files, fileInfoName dir info fi ≠ q) →
      lookupA (writeAtOuter dir info st files p off).2.fs q = lookupA st.fs q := by
  intro files
  induction files with
  | nil =>
    intro st p off q _
    rfl
  | cons fi rest ih =>
    intro st p off q hne
    have hfi : fileInfoName dir info fi ≠ q := hne fi (List.mem_cons_self fi rest)
    have hrest : ∀ fj ∈ rest, fileInfoName dir info fj ≠ q :=
      fun fj hm => hne fj (List.mem_cons_of_mem fi hm)
    by_cases hskip : off ≥ fi.length
    · rw [writeAtOuter, if_pos hskip]
      exact ih st p (off - fi.length) q hrest
    · obtain ⟨i, st1, hopen, _⟩ := @openFile_true_ok dir info st fi
      have hfr := @openFile_fs_frame dir info st fi true q (fun hc => hfi hc.symm)
      rw [hopen] at hfr
      rw [writeAtOuter, if_neg hskip, hopen]
      simp only []
      by_cases hdone : p.length - min p.length (fi.length - off) = 0
      · rw [if_pos hdone]
        simp only []
        rw [lookupA_setA_ne _ _ _ _ (fun hc => hfi hc.symm)]
        exact hfr
      · rw [if_neg hdone]
        rw [ih _ (p.drop (min p.length (fi.length - off))) 0 q hrest]
        simp only []
        rw [lookupA_setA_ne _ _ _ _ (fun hc => hfi hc.symm)]
        exact hfr

theorem readAtEntry_after_write (dir : String) (info : Info) (st : St) (fi : FileInfo)
    (off : Nat) (d c : Bytes) (i : Nat)
    (hoff : off < fi.length)
    (hh : lookupA st.handles (fileInfoName dir info fi) = some i)
    (hc : lookupA st.fs (fileInfoName dir info fi)
      = some (fWriteAt c (d.take (min d.length (fi.length - off))) off)) :
    (readAtEntry dir info st fi d.length off).1.1 = d.take (min d.length (fi.length - off)) ∧
    (readAtEntry dir info st fi d.length off).2 = st ∧
    (readAtEntry dir info st fi d.length off).1.2.1 =
      (if d.length ≤ fi.length - off then InnerRes.done none else InnerRes.exhausted) := by
  set n1 := min d.length (fi.length - off) with hn1
  set dd := d.take n1 with hdd
  have hddlen : dd.length = n1 := by
    rw [hdd]
    simp only [List.length_take]
    omega
  have hopen := @openFile_cached dir info st fi false i hh
  have hcf := readFileAtLoop_closed (fileInfoName dir info fi) (fWriteAt c dd off)
    fi.length n1 off (by omega)
  have hbytes : ((fWriteAt c dd off).drop off).take n1 = dd := by
    rw [show n1 = dd.length from hddlen.symm ▸ rfl]
    exact hddlen ▸ fWriteAt_readback c dd off
  rcases hx : readFileAtLoop (fileInfoName dir info fi) (fWriteAt c dd off)
      fi.length n1 off with ⟨bs, e, ops⟩
  rw [hx] at hcf
  simp only [] at hcf
  have hbs : bs = dd := by
    rw [hcf.1, hbytes]
  have he : e = none := by
    rw [hcf.2.1, hbytes, hddlen, if_pos rfl]
  have hrfa : readFileAt dir info st fi d.length off = ((dd, none, ops), st) := by
    rw [readFileAt, hopen]
    simp only []
    rw [hc]
    simp only [Option.getD_some]
    rw [← hn1, hx, hbs, he]
  rw [readAtEntry, dif_pos hoff, hrfa]
  simp only []
  by_cases hle : d.length ≤ fi.length - off
  · have hn1d : n1 = d.length := by omega
    have h1 : d.length - dd.length = 0 := by omega
    rw [dif_pos h1]
    exact ⟨by trivial, by trivial, by simp [hle]⟩
  · have hn1d : n1 = fi.length - off := by omega
    have h1 : ¬ d.length - dd.length = 0 := by omega
    have h2 : dd.length ≠ 0 := by omega
    rw [dif_neg h1, dif_pos h2]
    rw [readAtEntry_oob dir info st fi (d.length - dd.length) (off + dd.length)
      (by omega)]
    simp only [List.append_nil]
    exact ⟨by trivial, by trivial, by simp [hle]⟩

theorem roundtrip_aux (dir : String) (info : Info) :
    ∀ (files : List FileInfo) (st : St) (d : Bytes) (off : Nat),
      (files.map (fileInfoName dir info)).Nodup →
      off + d.length ≤ sumLen files →
      (readAtOuter dir info (writeAtOuter dir info st files d off).2
        files d.length off).1.1 = d := by
  intro files
  induction files with
  | nil =>
    intro st d off _ harith
    have hd : d = [] := by
      have : d.length = 0 := by
        simp only [sumLen, List.map_nil, List.sum_nil] at harith
        omega
      exact List.eq_nil_of_length_eq_zero this
    subst hd
    rfl
  | cons fi rest ih =>
    intro st d off hnd harith
    have hS : sumLen (fi :: rest) = fi.length + sumLen rest := by
      simp [sumLen]
    have hndr : (rest.map (fileInfoName dir info)).Nodup := by
      simp only [List.map_cons, List.nodup_cons] at hnd
      exact hnd.2
    have hnotin : fileInfoName dir info fi ∉ rest.map (fileInfoName dir info) := by
      simp only [List.map_cons, List.nodup_cons] at hnd
      exact hnd.1
    have hfrne : ∀ fj ∈ rest, fileInfoName dir info fj ≠ fileInfoName dir info fi := by
      intro fj hj hc
      exact hnotin (hc ▸ List.mem_map_of_mem (fileInfoName dir info) hj)
    by_cases hskip : off ≥ fi.length
    · rw [writeAtOuter, if_pos hskip]
      rw [readAtOuter, readAtEntry_oob dir info _ fi d.length off (by omega)]
      simp only [List.length_nil, List.nil_append, Nat.sub_zero, Nat.add_zero]
      exact ih st d (off - fi.length) hndr (by omega)
    · obtain ⟨i, st1, hopen, hcache⟩ := @openFile_true_ok dir info st fi
      rw [writeAtOuter, if_neg hskip, hopen]
      simp only []
      set n1 := min d.length (fi.length - off) with hn1
      set c := (lookupA st1.fs (fileInfoName dir info fi)).getD [] with hcdef
      set st2 : St :=
        { st1 with fs := setA st1.fs (fileInfoName dir info fi) (fWriteAt c (d.take n1) off) }
        with hst2
      have hc2 : lookupA st2.fs (fileInfoName dir info fi)
          = some (fWriteAt c (d.take n1) off) := by
        rw [hst2]
        exact lookupA_setA_self _ _ _
      have hh2 : lookupA st2.handles (fileInfoName dir info fi) = some i := hcache
      by_cases hdone : d.length - n1 = 0
      · rw [if_pos hdone]
        obtain ⟨hb, hstq, hres⟩ :=
          readAtEntry_after_write dir info st2 fi off d c i (by omega) hh2 hc2
        have hle : d.length ≤ fi.length - off := by omega
        rw [if_pos hle] at hres
        rcases hre : readAtEntry dir info st2 fi d.length off with ⟨⟨bs1, res1, ops1⟩, str⟩
        rw [hre] at hb hstq hres
        simp only [] at hb hstq hres
        rw [← hn1] at hb
        rw [readAtOuter, hre, hres]
        simp only []
        rw [hb]
        have hfull : n1 = d.length := by omega
        rw [hfull, List.take_length]
      · rw [if_neg hdone]
        -- the write continues into the remaining entries
        set stw := (writeAtOuter dir info st2 rest (d.drop n1) 0).2 with hstw
        have hhw : lookupA stw.handles (fileInfoName dir info fi) = some i :=
          writeAtOuter_handles_mono dir info rest st2 (d.drop n1) 0 _ i hh2
        have hcw : lookupA stw.fs (fileInfoName dir info fi)
            = some (fWriteAt c (d.take n1) off) := by
          rw [hstw, writeAtOuter_fs_frame dir info rest st2 (d.drop n1) 0 _ hfrne]
          exact hc2
        obtain ⟨hb, hstq, hres⟩ :=
          readAtEntry_after_write dir info stw fi off d c i (by omega) hhw hcw
        have hle : ¬ d.length ≤ fi.length - off := by omega
        rw [if_neg hle] at hres
        rcases hre : readAtEntry dir info stw fi d.length off with ⟨⟨bs1, res1, ops1⟩, str⟩
        rw [hre] at hb hstq hres
        simp only [] at hb hstq hres
        rw [← hn1] at hb
        rw [readAtOuter, hre, hres]
        simp only []
        subst hstq
        rw [hb]
        have hlen1 : (d.take n1).length = n1 := by
          simp only [List.length_take]
          omega
        have hoffn : off + (d.take n1).length - fi.length = 0 := by
          rw [hlen1]
          omega
        have hblen : d.length - (d.take n1).length = (d.drop n1).length := by
          rw [hlen1]
          simp only [List.length_drop]
        rw [hoffn, hblen]
        rw [ih st2 (d.drop n1) 0 hndr (by simp only [List.length_drop]; omega)]
        rw [← List.take_append_drop n1 d]
        simp

/-- C1 (amended): round trip. For a torrent whose file entries resolve
to pairwise distinct paths, writing a byte sequence of a piece's length
at the piece's offset through the extent-translating writer and reading
the same range back through the reader yields exactly the original
bytes. -/
theorem c1_roundtrip (dir : String) (info : Info) (st : St) (idx : Nat) (d : Bytes)
    (hnd : (info.files.map (fileInfoName dir info)).Nodup)
    (hlen : d.length = pieceLength info idx) :
    (ReadAt dir info (WriteAt dir info st d (pieceOffset info idx)).2
      d.length (pieceOffset info idx)).1.1 = d := by
  by_cases hin : pieceOffset info idx ≤ totalLength info
  · have harith : pieceOffset info idx + d.length ≤ sumLen info.files := by
      have : pieceLength info idx ≤ totalLength info - pieceOffset info idx := by
        rw [pieceLength]
        omega
      have hT : totalLength info = sumLen info.files := rfl
      omega
    exact roundtrip_aux dir info info.files st d (pieceOffset info idx) hnd harith
  · -- degenerate: the piece offset lies past the end, so the piece is empty
    have hd0 : d.length = 0 := by
      rw [hlen, pieceLength]
      have : totalLength info - pieceOffset info idx = 0 := by omega
      omega
    have hd : d = [] := List.eq_nil_of_length_eq_zero hd0
    subst hd
    obtain ⟨bs, e, ops, st1, heq, hle, _⟩ :=
      readAtOuter_spec dir info info.files
        (WriteAt dir info st [] (pieceOffset info idx)).2 0 (pieceOffset info idx)
    have hra : ReadAt dir info (WriteAt dir info st [] (pieceOffset info idx)).2
        0 (pieceOffset info idx) = ((bs, e, ops), st1) := heq
    rw [List.length_nil, hra]
    simp only []
    exact List.eq_nil_of_length_eq_zero (by omega)

/-- A torrent whose two file entries resolve to the same path. -/
def infoDup : Info := ⟨"t", 2, [⟨["a"], 1⟩, ⟨["a"], 1⟩]⟩

/-- Counterexample to C1 as stated: when two file entries resolve to the
same path, writing piece 0's bytes `[1, 2]` and reading the same range
back yields `[2, 2]`, not the original sequence — the second entry's
write clobbers the first entry's byte in the shared physical file. -/
theorem c1_roundtrip_cex :
    ([1, 2] : Bytes).length = pieceLength infoDup 0 ∧
    pieceOffset infoDup 0 = 0 ∧
    (ReadAt "d" infoDup (WriteAt "d" infoDup stEmpty [1, 2] (pieceOffset infoDup 0)).2
      ([1, 2] : Bytes).length (pieceOffset infoDup 0)).1.1 = [2, 2] ∧
    (ReadAt "d" infoDup (WriteAt "d" infoDup stEmpty [1, 2] (pieceOffset infoDup 0)).2
      ([1, 2] : Bytes).length (pieceOffset infoDup 0)).1.1 ≠ [1, 2] := by
  have heval :
      (ReadAt "d" infoDup (WriteAt "d" infoDup stEmpty [1, 2] (pieceOffset infoDup 0)).2
        ([1, 2] : Bytes).length (pieceOffset infoDup 0)).1.1 = [2, 2] := by
    simp [ReadAt, WriteAt, readAtOuter, readAtEntry, readFileAt, readFileAtLoop, openFile,
      fWriteAt, lookupA, setA, infoDup, stEmpty, fileInfoName, writeAtOuter, pieceOffset]
  refine ⟨by decide, by decide, heval, ?_⟩
  rw [heval]
  decide

/-- Witness for C1 (amended): on the two-file torrent with distinct
paths, writing piece 0's bytes `[5, 6]` and reading them back returns
them unchanged. -/
theorem c1_roundtrip_witness :
    ((infoTwo1.files.map (fileInfoName "d" infoTwo1)).Nodup ∧
      ([5, 6] : Bytes).length = pieceLength infoTwo1 0) ∧
    (ReadAt "d" infoTwo1 (WriteAt "d" infoTwo1 stEmpty [5, 6] (pieceOffset infoTwo1 0)).2
      ([5, 6] : Bytes).length (pieceOffset infoTwo1 0)).1.1 = [5, 6] :=
  ⟨⟨by decide, by decide⟩, c1_roundtrip "d" infoTwo1 stEmpty 0 [5, 6] (by decide) (by decide)⟩

/-! ### Claim C8: handle-cache uniqueness and reuse -/

theorem openFile_ok_caches {dir info st fi creatable h st1}
    (hk : openFile dir info st fi creatable = (Except.ok h, st1)) :
    lookupA st1.handles (fileInfoName dir info fi) = some h.id := by
  rw [openFile] at hk
  rcases hl : lookupA st.handles (fileInfoName dir info fi) with _ | i
  · simp only [hl] at hk
    by_cases hc : lookupA st.fs (fileInfoName dir info fi) = none ∧ creatable = false
    · simp [hc] at hk
    · simp only [if_neg hc, Prod.mk.injEq, Except.ok.injEq] at hk
      rw [← hk.2, ← hk.1]
      exact lookupA_setA_self st.handles (fileInfoName dir info fi) st.nextId
  · simp only [hl, Prod.mk.injEq, Except.ok.injEq] at hk
    rw [← hk.2, ← hk.1]
    exact hl

theorem readFileAt_nodup {dir info st fi bLen off}
    (hnd : (St.handles st |>.map Prod.fst).Nodup) :
    ((readFileAt dir info st fi bLen off).2.handles.map Prod.fst).Nodup := by
  have ho := @openFile_nodup dir info st fi false hnd
  rw [readFileAt]
  rcases hof : openFile dir info st fi false with ⟨r, st1⟩
  rw [hof] at ho
  rcases r with e | h
  · exact ho
  · exact ho

theorem readAtEntry_nodup (dir : String) (info : Info) (fi : FileInfo) :
    ∀ (bLen : Nat) (st : St) (off : Nat),
      (st.handles.map Prod.fst).Nodup →
      ((readAtEntry dir info st fi bLen off).2.handles.map Prod.fst).Nodup := by
  intro bLen
  induction bLen using Nat.strong_induction_on with
  | _ bLen ih =>
    intro st off hnd
    by_cases hoff : off < fi.length
    · have hrf := @readFileAt_nodup dir info st fi bLen off hnd
      rcases hx : readFileAt dir info st fi bLen off with ⟨⟨chunk, e1, ops⟩, st1⟩
      rw [hx] at hrf
      rw [readAtEntry, dif_pos hoff, hx]
      simp only []
      by_cases h1 : bLen - chunk.length = 0
      · rw [dif_pos h1]
        exact hrf
      · by_cases h2 : chunk.length ≠ 0
        · rw [dif_neg h1, dif_pos h2]
          exact ih (bLen - chunk.length) (by omega) st1 (off + chunk.length) hrf
        · rw [dif_neg h1, dif_neg h2]
          exact hrf
    · rw [readAtEntry_oob dir info st fi bLen off hoff]
      exact hnd

theorem readAtOuter_nodup (dir : String) (info : Info) :
    ∀ (files : List FileInfo) (st : St) (bLen off : Nat),
      (st.handles.map Prod.fst).Nodup →
      ((readAtOuter dir info st files bLen off).2.handles.map Prod.fst).Nodup := by
  intro files
  induction files with
  | nil =>
    intro st bLen off hnd
    exact hnd
  | cons fi rest ih =>
    intro st bLen off hnd
    have hre := readAtEntry_nodup dir info fi bLen st off hnd
    rcases hx : readAtEntry dir info st fi bLen off with ⟨⟨bs1, res1, ops1⟩, st1⟩
    rw [hx] at hre
    rw [readAtOuter, hx]
    rcases res1 with _ | e
    · exact ih st1 (bLen - bs1.length) (off + bs1.length - fi.length) hre
    · exact hre

theorem writeAtOuter_nodup (dir : String) (info : Info) :
    ∀ (files : List FileInfo) (st : St) (p : Bytes) (off : Nat),
      (st.handles.map Prod.fst).Nodup →
      ((writeAtOuter dir info st files p off).2.handles.map Prod.fst).Nodup := by
  intro files
  induction files with
  | nil =>
    intro st p off hnd
    exact hnd
  | cons fi rest ih =>
    intro st p off hnd
    by_cases hskip : off ≥ fi.length
    · rw [writeAtOuter, if_pos hskip]
      exact ih st p (off - fi.length) hnd
    · obtain ⟨i, st1, hopen, _⟩ := @openFile_true_ok dir info st fi
      have ho := @openFile_nodup dir info st fi true hnd
      rw [hopen] at ho
      rw [writeAtOuter, if_neg hskip, hopen]
      simp only []
      by_cases hdone : p.length - min p.length (fi.length - off) = 0
      · rw [if_pos hdone]
        exact ho
      · rw [if_neg hdone]
        exact ih _ (p.drop (min p.length (fi.length - off))) 0 ho

theorem completionCheckLoop_nodup (dir : String) (info : Info) :
    ∀ (l : List FileInfo) (st : St),
      (st.handles.map Prod.fst).Nodup →
      ((completionCheckLoop dir info st l).2.handles.map Prod.fst).Nodup := by
  intro l
  induction l with
  | nil =>
    intro st hnd
    exact hnd
  | cons fi rest ih =>
    intro st hnd
    have ho := @openFile_nodup dir info st fi false hnd
    rcases hof : openFile dir info st fi false with ⟨r, st1⟩
    rw [hof] at ho
    rw [completionCheckLoop, hof]
    rcases r with e | h
    · exact ho
    · simp only []
      by_cases hsz : ((lookupA st1.fs h.path).getD []).length < fi.length
      · rw [if_pos hsz]
        exact ho
      · rw [if_neg hsz]
        exact ih st1 ho

theorem pieceCompletion_nodup (dir : String) (info : Info) (st : St) (idx : Nat)
    (hnd : (st.handles.map Prod.fst).Nodup) :
    ((pieceCompletion dir info st idx).2.handles.map Prod.fst).Nodup := by
  rw [pieceCompletion]
  by_cases hok : (pcGet st.pc idx).ok = false
  · rw [if_pos hok]
    exact hnd
  · rw [if_neg hok]
    have hl := completionCheckLoop_nodup dir info
      (extentCompleteRequiredLengths info.files (pieceOffset info idx) (pieceLength info idx))
      st hnd
    rcases hx : completionCheckLoop dir info st
        (extentCompleteRequiredLengths info.files (pieceOffset info idx)
          (pieceLength info idx)) with ⟨pass, st1⟩
    rw [hx] at hl
    simp only []
    by_cases hcmp : ((pcGet st.pc idx).complete && pass) = false
    · rw [if_pos hcmp]
      exact hl
    · rw [if_neg hcmp]
      exact hl

/-- C8: handle-cache uniqueness and reuse. When the handle map holds at
most one handle per absolute path, it still does after an open, a
write, a read, or a completion check; and a second open of the same
file entry returns the previously cached handle with the state
unchanged, rather than opening a new one. -/
theorem c8_handle_cache (dir : String) (info : Info) (st : St) (fi : FileInfo)
    (creatable creatable2 : Bool) (p : Bytes) (bLen off off2 idx : Nat)
    (hnd : (st.handles.map Prod.fst).Nodup) :
    ((openFile dir info st fi creatable).2.handles.map Prod.fst).Nodup ∧
    ((WriteAt dir info st p off).2.handles.map Prod.fst).Nodup ∧
    ((ReadAt dir info st bLen off2).2.handles.map Prod.fst).Nodup ∧
    ((pieceCompletion dir info st idx).2.handles.map Prod.fst).Nodup ∧
    (∀ h st1, openFile dir info st fi creatable = (Except.ok h, st1) →
      openFile dir info st1 fi creatable2 = (Except.ok h, st1)) := by
  refine ⟨openFile_nodup hnd, writeAtOuter_nodup dir info info.files st p off hnd,
    readAtOuter_nodup dir info info.files st bLen off2 hnd,
    pieceCompletion_nodup dir info st idx hnd, ?_⟩
  intro h st1 hk
  have hp := openFile_ok_path hk
  have hcache := openFile_ok_caches hk
  have := @openFile_cached dir info st1 fi creatable2 h.id hcache
  rw [this]
  have hh : (⟨fileInfoName dir info fi, h.id⟩ : Handle) = h := by
    rcases h with ⟨hp0, hid⟩
    simp only [] at hp
    rw [hp]
  rw [hh]

/-- The state after the handle for file `a` of the two-file torrent has
been opened once on the truncated disk state. -/
def stAfterOpen : St :=
  ⟨[(["d", "t", "a"], [1, 2]), (["d", "t", "b"], [3])], [(["d", "t", "a"], 0)], 1, [], []⟩

/-- Witness for C8: on the concrete truncated disk state with an empty
handle cache, opening file `a` caches handle 0, and opening it again
returns the very same handle without changing the state. -/
theorem c8_handle_cache_witness :
    ((stTrunc.handles.map Prod.fst).Nodup ∧
      openFile "d" infoAB stTrunc ⟨["a"], 2⟩ false
        = (Except.ok ⟨["d", "t", "a"], 0⟩, stAfterOpen)) ∧
    openFile "d" infoAB stAfterOpen ⟨["a"], 2⟩ false
      = (Except.ok ⟨["d", "t", "a"], 0⟩, stAfterOpen) :=
  ⟨⟨by decide, by decide⟩,
    (c8_handle_cache "d" infoAB stTrunc ⟨["a"], 2⟩ false false [] 0 0 0 0 (by decide)).2.2.2.2
      ⟨["d", "t", "a"], 0⟩ stAfterOpen (by decide)⟩

/-! ### Claim C9: zero-length file materialization -/

theorem createZeroLoop_keeps_empty (dir : String) (info : Info) (fail : List Path) :
    ∀ (files : List FileInfo) (fs : List (Path × Bytes)) (q : Path),
      lookupA fs q = some [] →
      lookupA (createZeroLoop dir info fail fs files).2 q = some [] := by
  intro files
  induction files with
  | nil =>
    intro fs q hq
    exact hq
  | cons fi rest ih =>
    intro fs q hq
    rw [createZeroLoop]
    by_cases hz : fi.length ≠ 0
    · rw [if_pos hz]
      exact ih fs q hq
    · rw [if_neg hz]
      by_cases hfail : fileInfoName dir info fi ∈ fail
      · rw [if_pos hfail]
        exact hq
      · rw [if_neg hfail]
        apply ih
        by_cases hqe : fileInfoName dir info fi = q
        · rw [hqe, lookupA_setA_self]
        · rw [lookupA_setA_ne _ _ _ _ (fun hc => hqe hc.symm)]
          exact hq

theorem createZeroLoop_spec (dir : String) (info : Info) (fail : List Path) :
    ∀ (files : List FileInfo) (fs : List (Path × Bytes)),
      (∀ q, (∀ fi ∈ files, fi.length = 0 → fileInfoName dir info fi ≠ q) →
        lookupA (createZeroLoop dir info fail fs files).2 q = lookupA fs q) ∧
      ((createZeroLoop dir info fail fs files).1 = none ↔
        ∀ fi ∈ files, fi.length = 0 → fileInfoName dir info fi ∉ fail) ∧
      ((createZeroLoop dir info fail fs files).1 = none →
        ∀ fi ∈ files, fi.length = 0 →
          lookupA (createZeroLoop dir info fail fs files).2 (fileInfoName dir info fi)
            = some []) ∧
      (∀ er, (createZeroLoop dir info fail fs files).1 = some er →
        ∃ l1 fi l2, files = l1 ++ fi :: l2 ∧ fi.length = 0 ∧
          fileInfoName dir info fi ∈ fail ∧
          er = IOErr.createFail (fileInfoName dir info fi) ∧
          (∀ fj ∈ l1, fj.length = 0 → fileInfoName dir info fj ∉ fail) ∧
          (∀ fj ∈ l1, fj.length = 0 →
            lookupA (createZeroLoop dir info fail fs files).2 (fileInfoName dir info fj)
              = some [])) := by
  intro files
  induction files with
  | nil =>
    intro fs
    refine ⟨fun q _ => rfl, by simp [createZeroLoop], fun _ fi hfi => absurd hfi (by simp),
      fun er her => absurd her (by simp [createZeroLoop])⟩
  | cons fi0 rest ih =>
    intro fs
    by_cases hz : fi0.length ≠ 0
    · have hred : createZeroLoop dir info fail fs (fi0 :: rest)
          = createZeroLoop dir info fail fs rest := by
        rw [createZeroLoop, if_pos hz]
      obtain ⟨ihf, ihn, ihc, ihe⟩ := ih fs
      rw [hred]
      refine ⟨?_, ?_, ?_, ?_⟩
      · intro q hq
        exact ihf q (fun fj hj hjz => hq fj (List.mem_cons_of_mem fi0 hj) hjz)
      · rw [ihn]
        constructor
        · intro hc fj hj hjz
          rcases List.mem_cons.mp hj with rfl | hj
          · exact absurd hjz hz
          · exact hc fj hj hjz
        · intro hc fj hj hjz
          exact hc fj (List.mem_cons_of_mem fi0 hj) hjz
      · intro hn fj hj hjz
        rcases List.mem_cons.mp hj with rfl | hj
        · exact absurd hjz hz
        · exact ihc hn fj hj hjz
      · intro er her
        obtain ⟨l1, fi, l2, hsplit, hfiz, hfif, herr, hl1, hl1c⟩ := ihe er her
        refine ⟨fi0 :: l1, fi, l2, by rw [hsplit, List.cons_append], hfiz, hfif, herr, ?_, ?_⟩
        · intro fj hj hjz
          rcases List.mem_cons.mp hj with rfl | hj
          · exact absurd hjz hz
          · exact hl1 fj hj hjz
        · intro fj hj hjz
          rcases List.mem_cons.mp hj with rfl | hj
          · exact absurd hjz hz
          · exact hl1c fj hj hjz
    · push_neg at hz
      by_cases hfail : fileInfoName dir info fi0 ∈ fail
      · have hred : createZeroLoop dir info fail fs (fi0 :: rest)
            = (some (IOErr.createFail (fileInfoName dir info fi0)), fs) := by
          rw [createZeroLoop, if_neg (by omega), if_pos hfail]
        rw [hred]
        refine ⟨fun q _ => rfl, ?_, ?_, ?_⟩
        · simp only [reduceCtorEq, false_iff]
          intro hc
          exact (hc fi0 (List.mem_cons_self fi0 rest) hz) hfail
        · intro hn
          exact absurd hn (by simp)
        · intro er her
          simp only [Option.some.injEq] at her
          exact ⟨[], fi0, rest, rfl, hz, hfail, her.symm, by simp, by simp⟩
      · have hred : createZeroLoop dir info fail fs (fi0 :: rest)
            = createZeroLoop dir info fail (setA fs (fileInfoName dir info fi0) []) rest := by
          rw [createZeroLoop, if_neg (by omega), if_neg hfail]
        obtain ⟨ihf, ihn, ihc, ihe⟩ := ih (setA fs (fileInfoName dir info fi0) [])
        rw [hred]
        refine ⟨?_, ?_, ?_, ?_⟩
        · intro q hq
          rw [ihf q (fun fj hj hjz => hq fj (List.mem_cons_of_mem fi0 hj) hjz)]
          exact lookupA_setA_ne _ _ _ _
            (fun hc => hq fi0 (List.mem_cons_self fi0 rest) hz hc.symm)
        · rw [ihn]
          constructor
          · intro hc fj hj hjz
            rcases List.mem_cons.mp hj with rfl | hj
            · exact hfail
            · exact hc fj hj hjz
          · intro hc fj hj hjz
            exact hc fj (List.mem_cons_of_mem fi0 hj) hjz
        · intro hn fj hj hjz
          rcases List.mem_cons.mp hj with rfl | hj
          · exact createZeroLoop_keeps_empty dir info fail rest _ _ (lookupA_setA_self _ _ _)
          · exact ihc hn fj hj hjz
        · intro er her
          obtain ⟨l1, fi, l2, hsplit, hfiz, hfif, herr, hl1, hl1c⟩ := ihe er her
          refine ⟨fi0 :: l1, fi, l2, by rw [hsplit, List.cons_append], hfiz, hfif, herr, ?_, ?_⟩
          · intro fj hj hjz
            rcases List.mem_cons.mp hj with rfl | hj
            · exact hfail
            · exact hl1 fj hj hjz
          · intro fj hj hjz
            rcases List.mem_cons.mp hj with rfl | hj
            · exact createZeroLoop_keeps_empty dir info fail rest _ _
                (lookupA_setA_self _ _ _)
            · exact hl1c fj hj hjz

theorem createZeroLoop_idem (dir : String) (info : Info) (fail : List Path) :
    ∀ (files : List FileInfo) (fs : List (Path × Bytes)),
      (∀ fi ∈ files, fi.length = 0 →
        fileInfoName dir info fi ∉ fail ∧ lookupA fs (fileInfoName dir info fi) = some []) →
      createZeroLoop dir info fail fs files = (none, fs) := by
  intro files
  induction files with
  | nil =>
    intro fs _
    rfl
  | cons fi0 rest ih =>
    intro fs hok
    by_cases hz : fi0.length ≠ 0
    · rw [createZeroLoop, if_pos hz]
      exact ih fs (fun fj hj hjz => hok fj (List.mem_cons_of_mem fi0 hj) hjz)
    · push_neg at hz
      obtain ⟨hnf, hlk⟩ := hok fi0 (List.mem_cons_self fi0 rest) hz
      rw [createZeroLoop, if_neg (by omega), if_neg hnf,
        setA_eq_of_lookup _ _ _ hlk]
      exact ih fs (fun fj hj hjz => hok fj (List.mem_cons_of_mem fi0 hj) hjz)

/-- C9: zero-length file materialization. The materializer walks the
file entries in order touching only zero-length entries; when every
creation succeeds it reports no error, `openTorrent` returns a fresh
store over the resulting disk, and a repeated run changes nothing
(idempotence); on the first zero-length entry whose creation fails it
stops, `openTorrent` fails with that entry's error, earlier zero-length
entries' files are left in place on disk, and no rollback occurs. -/
theorem c9_zero_length_materialization (dir : String) (info : Info)
    (fs : List (Path × Bytes)) (fail : List Path) (pc : List (Nat × Bool)) :
    (∀ q, (∀ fi ∈ info.files, fi.length = 0 → fileInfoName dir info fi ≠ q) →
      lookupA (CreateNativeZeroLengthFiles dir info fs fail).2 q = lookupA fs q) ∧
    ((CreateNativeZeroLengthFiles dir info fs fail).1 = none ↔
      ∀ fi ∈ info.files, fi.length = 0 → fileInfoName dir info fi ∉ fail) ∧
    ((CreateNativeZeroLengthFiles dir info fs fail).1 = none →
      (∀ fi ∈ info.files, fi.length = 0 →
        lookupA (CreateNativeZeroLengthFiles dir info fs fail).2 (fileInfoName dir info fi)
          = some []) ∧
      openTorrent dir info fs fail pc
        = Except.ok ⟨(CreateNativeZeroLengthFiles dir info fs fail).2, [], 0, pc, []⟩ ∧
      CreateNativeZeroLengthFiles dir info (CreateNativeZeroLengthFiles dir info fs fail).2 fail
        = (none, (CreateNativeZeroLengthFiles dir info fs fail).2)) ∧
    (∀ er, (CreateNativeZeroLengthFiles dir info fs fail).1 = some er →
      openTorrent dir info fs fail pc = Except.error er ∧
      ∃ l1 fi l2, info.files = l1 ++ fi :: l2 ∧ fi.length = 0 ∧
        fileInfoName dir info fi ∈ fail ∧
        er = IOErr.createFail (fileInfoName dir info fi) ∧
        (∀ fj ∈ l1, fj.length = 0 → fileInfoName dir info fj ∉ fail) ∧
        (∀ fj ∈ l1, fj.length = 0 →
          lookupA (CreateNativeZeroLengthFiles dir info fs fail).2 (fileInfoName dir info fj)
            = some [])) := by
  obtain ⟨hf, hn, hc, he⟩ := createZeroLoop_spec dir info fail info.files fs
  refine ⟨hf, hn, ?_, ?_⟩
  · intro hnone
    refine ⟨hc hnone, ?_, ?_⟩
    · rw [openTorrent]
      rcases hx : CreateNativeZeroLengthFiles dir info fs fail with ⟨e, fs1⟩
      have : e = none := by
        rw [CreateNativeZeroLengthFiles] at hx
        rw [← hn.mpr (hn.mp hnone)]
        rw [hx]
      subst this
      simp only []
    · apply createZeroLoop_idem
      intro fj hj hjz
      exact ⟨hn.mp hnone fj hj hjz, hc hnone fj hj hjz⟩
  · intro er her
    refine ⟨?_, he er her⟩
    rw [openTorrent]
    rcases hx : CreateNativeZeroLengthFiles dir info fs fail with ⟨e, fs1⟩
    rw [hx] at her
    simp only [] at her
    subst her
    simp only []

/-- A torrent with two zero-length entries around a regular entry. -/
def infoZeros : Info := ⟨"t", 1, [⟨["z1"], 0⟩, ⟨["a"], 1⟩, ⟨["z2"], 0⟩]⟩

/-- Witness for C9: with creation failing on the second zero-length
file, the materializer surfaces exactly that creation error and the
open fails with it (the first zero-length file has already been
created and is left in place). -/
theorem c9_zero_length_materialization_witness :
    (CreateNativeZeroLengthFiles "d" infoZeros [] [["d", "t", "z2"]]).1
      = some (IOErr.createFail ["d", "t", "z2"]) ∧
    openTorrent "d" infoZeros [] [["d", "t", "z2"]] []
      = Except.error (IOErr.createFail ["d", "t", "z2"]) :=
  ⟨by decide,
    ((c9_zero_length_materialization "d" infoZeros [] [["d", "t", "z2"]] []).2.2.2
      (IOErr.createFail ["d", "t", "z2"]) (by decide)).1⟩

/-! ### Claims C2 and C5: piece completion -/

theorem extent_pos :
    ∀ (files : List FileInfo) (off n : Nat),
      ∀ fi ∈ extentCompleteRequiredLengths files off n, 0 < fi.length := by
  intro files
  induction files with
  | nil =>
    intro off n fi hfi
    rcases n with _ | m
    · simp [extentCompleteRequiredLengths] at hfi
    · simp [extentCompleteRequiredLengths] at hfi
  | cons fi0 rest ih =>
    intro off n fi hfi
    rcases n with _ | m
    · simp [extentCompleteRequiredLengths] at hfi
    · rw [extentCompleteRequiredLengths] at hfi
      by_cases hskip : off ≥ fi0.length
      · rw [if_pos hskip] at hfi
        exact ih (off - fi0.length) (Nat.succ m) fi hfi
      · rw [if_neg hskip] at hfi
        simp only [List.mem_cons] at hfi
        rcases hfi with rfl | hfi
        · simp only []
          omega
        · exact ih 0 (Nat.succ m - min (Nat.succ m) (fi0.length - off)) fi hfi

theorem completionCheckLoop_fs (dir : String) (info : Info) :
    ∀ (l : List FileInfo) (st : St),
      (completionCheckLoop dir info st l).2.fs = st.fs := by
  intro l
  induction l with
  | nil =>
    intro st
    rfl
  | cons fi rest ih =>
    intro st
    have hfs := @openFile_false_fs dir info st fi
    rcases hof : openFile dir info st fi false with ⟨r, st1⟩
    rw [hof] at hfs
    rw [completionCheckLoop, hof]
    rcases r with e | h
    · exact hfs
    · simp only []
      by_cases hsz : ((lookupA st1.fs h.path).getD []).length < fi.length
      · rw [if_pos hsz]
        exact hfs
      · rw [if_neg hsz]
        rw [ih st1]
        exact hfs

theorem completionCheckLoop_true_iff (dir : String) (info : Info) :
    ∀ (l : List FileInfo) (st : St),
      (∀ fi ∈ l, 0 < fi.length) →
      ((completionCheckLoop dir info st l).1 = true ↔
        ∀ fi ∈ l, fi.length ≤ ((lookupA st.fs (fileInfoName dir info fi)).getD []).length) := by
  intro l
  induction l with
  | nil =>
    intro st _
    simp [completionCheckLoop]
  | cons fi rest ih =>
    intro st hpos
    have hposr : ∀ fj ∈ rest, 0 < fj.length :=
      fun fj hj => hpos fj (List.mem_cons_of_mem fi hj)
    have hposf : 0 < fi.length := hpos fi (List.mem_cons_self fi rest)
    rcases hof : openFile dir info st fi false with ⟨r, st1⟩
    rw [completionCheckLoop, hof]
    rcases r with e | h
    · obtain ⟨_, hstq, _, hfsn, _⟩ := openFile_error hof
      subst hstq
      simp only [reduceCtorEq, false_iff]
      intro hc
      have := hc fi (List.mem_cons_self fi rest)
      rw [hfsn] at this
      simp only [Option.getD_none, List.length_nil] at this
      omega
    · have hfs := @openFile_false_fs dir info st fi
      rw [hof] at hfs
      have hpath := openFile_ok_path hof
      simp only []
      rw [hpath, hfs]
      by_cases hsz : ((lookupA st.fs (fileInfoName dir info fi)).getD []).length < fi.length
      · rw [if_pos hsz]
        simp only [reduceCtorEq, false_iff]
        intro hc
        have := hc fi (List.mem_cons_self fi rest)
        omega
      · rw [if_neg hsz]
        have hrec := ih st1 hposr
        rw [hrec]
        have hfseq : ∀ fj : FileInfo,
            lookupA st1.fs (fileInfoName dir info fj)
              = lookupA st.fs (fileInfoName dir info fj) := by
          intro fj
          rw [hfs]
        constructor
        · intro hc fj hj
          rcases List.mem_cons.mp hj with rfl | hj
          · omega
          · rw [← hfseq fj]
            exact hc fj hj
        · intro hc fj hj
          rw [hfseq fj]
          exact hc fj (List.mem_cons_of_mem fi hj)

/-- C2: completion is self-healing and sound. `Completion()` reports
`complete = true` only when the store's record is ok and complete and
every required file extent of the piece is present on disk with at
least the required length; and when the store claims complete but some
required file is missing or shorter, it reports `complete = false` and
writes `false` back to the store. -/
theorem c2_completion_self_healing (dir : String) (info : Info) (st : St) (idx : Nat) :
    ((pieceCompletion dir info st idx).1.complete = true →
      pcGet st.pc idx = ⟨true, true⟩ ∧
      ∀ fi ∈ extentCompleteRequiredLengths info.files (pieceOffset info idx)
          (pieceLength info idx),
        fi.length ≤ ((lookupA st.fs (fileInfoName dir info fi)).getD []).length) ∧
    (pcGet st.pc idx = ⟨true, true⟩ →
      (∃ fi ∈ extentCompleteRequiredLengths info.files (pieceOffset info idx)
          (pieceLength info idx),
        ((lookupA st.fs (fileInfoName dir info fi)).getD []).length < fi.length) →
      (pieceCompletion dir info st idx).1.complete = false ∧
      pcGet (pieceCompletion dir info st idx).2.pc idx = ⟨false, true⟩) := by
  set req := extentCompleteRequiredLengths info.files (pieceOffset info idx)
    (pieceLength info idx) with hreq
  have hpos : ∀ fi ∈ req, 0 < fi.length := by
    rw [hreq]
    exact extent_pos info.files (pieceOffset info idx) (pieceLength info idx)
  rw [pieceCompletion]
  by_cases hok : (pcGet st.pc idx).ok = false
  · rw [if_pos hok]
    constructor
    · intro hc
      exact absurd hc (by simp)
    · intro hget
      rw [hget] at hok
      exact absurd hok (by simp)
  · rw [if_neg hok]
    have hiff := completionCheckLoop_true_iff dir info req st hpos
    rcases hx : completionCheckLoop dir info st req with ⟨pass, st1⟩
    rw [hx] at hiff
    simp only [] at hiff
    simp only []
    constructor
    · intro hc
      by_cases hcm : ((pcGet st.pc idx).complete && pass) = false
      · rw [if_pos hcm] at hc
        simp only [] at hc
        rw [hc] at hcm
        exact absurd hcm (by simp)
      · rw [if_neg hcm] at hc
        have hand := Bool.not_eq_false _ |>.mp hcm
        have h1 : (pcGet st.pc idx).complete = true := (Bool.and_eq_true _ _ |>.mp hand).1
        have h2 : pass = true := (Bool.and_eq_true _ _ |>.mp hand).2
        constructor
        · have hokt : (pcGet st.pc idx).ok = true := by
            rcases hb : (pcGet st.pc idx).ok with _ | _
            · exact absurd hb hok
            · rfl
          rcases hg : pcGet st.pc idx with ⟨cc, co⟩
          rw [hg] at h1 hokt
          simp only [] at h1 hokt
          rw [h1, hokt]
        · exact hiff.mp h2
    · intro hget hviol
      have hpassf : pass = false := by
        rcases hb : pass with _ | _
        · rfl
        · exfalso
          obtain ⟨fi, hfi, hlt⟩ := hviol
          have := hiff.mp hb fi hfi
          omega
      rw [hpassf]
      simp only [Bool.and_false, if_pos rfl]
      refine ⟨rfl, ?_⟩
      simp [pcSet, pcGet, lookupA_setA_self]

/-- Disk and store state for the C2 witness: the store claims piece 0
complete, file `a` is fully present, file `b` is absent. -/
def stClaimed : St := ⟨[(["d", "t", "a"], [4])], [], 0, [(0, true)], []⟩

/-- Witness for C2: on a two-entry torrent whose second backing file has
been deleted while the store still claims piece 0 complete,
`Completion()` reports not complete and the store record is corrected
to `false`. -/
theorem c2_completion_self_healing_witness :
    (pcGet stClaimed.pc 0 = ⟨true, true⟩ ∧
      (∃ fi ∈ extentCompleteRequiredLengths infoTwo1.files (pieceOffset infoTwo1 0)
          (pieceLength infoTwo1 0),
        ((lookupA stClaimed.fs (fileInfoName "d" infoTwo1 fi)).getD []).length < fi.length)) ∧
    ((pieceCompletion "d" infoTwo1 stClaimed 0).1.complete = false ∧
      pcGet (pieceCompletion "d" infoTwo1 stClaimed 0).2.pc 0 = ⟨false, true⟩) :=
  ⟨⟨by decide, by decide⟩,
    (c2_completion_self_healing "d" infoTwo1 stClaimed 0).2 (by decide) (by decide)⟩

/-- Store state for C5: the record for piece 0 exists and is marked not
complete; the single backing file is fully present. -/
def stNotComplete : St := ⟨[(["d", "t", "a"], [7])], [], 0, [(0, false)], []⟩

/-- A single-file torrent with one byte. -/
def infoOne : Info := ⟨"t", 1, [⟨["a"], 1⟩]⟩

/-- C5 (evaluation at the failing input): when the stored record is ok
but not complete, `Completion()` does not return with the store left
untouched — it runs the verification pass and issues a corrective
`Set(key, false)` to the completion store even though the stored value
is already `false`: the ghost log of issued set operations grows from
empty to one entry. -/
theorem c5_set_issued_when_not_complete :
    pcGet stNotComplete.pc 0 = ⟨false, true⟩ ∧
    stNotComplete.pcLog = [] ∧
    (pieceCompletion "d" infoOne stNotComplete 0).1 = ⟨false, true⟩ ∧
    (pieceCompletion "d" infoOne stNotComplete 0).2.pcLog = [(0, false)] := by
  decide

end TorrentFileStorage
